import Mathlib

/-!
# Fixed-size-object pool allocator (memory.cpp)

A shallow embedding of `MemoryManager<LockPolicy>` and of the C boundary built on it.

* Machine words: `size_t` and `void*` are 64 bits wide, values are natural numbers below
  `WORD = 2^64`; every `size_t` operation of the source is written with an explicit `% WORD`.
  The loop index of `allocatedItems` is an `unsigned int` (32 bits, `UINT = 2^32`).
* Memory: the process memory is a map from byte addresses to bytes.  `storedPtr(item)` reads or
  writes the eight bytes starting at `item` (little endian).
* `std::malloc` belongs to the environment: an operation that may call it receives the answer
  of the allocator as a function from the requested size to the returned pointer (`0` is null).
* Exceptions and aborts: an operation returns its outcome together with the state in which
  it leaves the manager, so that the state after a thrown exception is part of the model.
  `assert` is modelled as checked (it aborts when its condition is false).
* The lock is held for the whole of each operation; the sequential semantics below is the
  semantics of one critical section.
-/

namespace Pool

/-- Number of values of a `size_t` or of a pointer. -/
def WORD : Nat := 2 ^ 64

/-- Number of values of an `unsigned int`. -/
def UINT : Nat := 2 ^ 32

/-- The value of `sizeof(void*)`. -/
def PTR_SIZE : Nat := 8

/-- Subtraction of two `size_t` values. -/
def subw (a b : Nat) : Nat := (a + WORD - b % WORD) % WORD

/-- The ways an operation can end without a result. -/
inductive Failure where
  /-- Thrown by the constructor: "item size must be at least of size of a pointer". -/
  | invalidItemSize
  /-- Thrown by `Block::Block`: "out of memory". -/
  | outOfMemory
  /-- An `assert` whose condition is false. -/
  | assertionFailed
  /-- The call `blocks.back()` on an empty vector. -/
  | emptyBack
  deriving DecidableEq

/-- Process memory: one byte per address. -/
abbrev Heap : Type := Nat → Fin 256

/-- Little-endian value of the `n` bytes starting at `a`. -/
def loadBytes (heap : Heap) : Nat → Nat → Nat
  | _, 0 => 0
  | a, n + 1 => (heap a).val + 256 * loadBytes heap (a + 1) n

/-- Read access `storedPtr(item)`: the pointer held in the first bytes of `item`. -/
def storedPtr (heap : Heap) (item : Nat) : Nat :=
  loadBytes heap item PTR_SIZE

/-- Write access `storedPtr(item) = value`. -/
def setStoredPtr (heap : Heap) (item value : Nat) : Heap :=
  fun b =>
    if item ≤ b ∧ b < item + PTR_SIZE then
      ⟨value / 256 ^ (b - item) % 256, Nat.mod_lt _ (by decide)⟩
    else heap b

/-- A write of one byte by the owner of a slot. -/
def setByte (heap : Heap) (addr : Nat) (byte : Fin 256) : Heap :=
  fun b => if b = addr then byte else heap b

/-- The struct `MemoryManager::Block`. -/
structure Block where
  unitializedItems : Nat
  memory : Nat
  deriving DecidableEq

/-- The constructor `Block::Block(itemSize, itemsPerBlock)`. -/
def Block.create (itemSize itemsPerBlock : Nat) (malloc : Nat → Nat) : Except Failure Block :=
  let memory := malloc (itemSize * itemsPerBlock % WORD)
  if memory = 0 then .error .outOfMemory
  else .ok { unitializedItems := itemsPerBlock, memory := memory }

/-- The method `Block::itemAtIndex(itemSize, index)`. -/
def Block.itemAtIndex (block : Block) (itemSize index : Nat) : Nat :=
  (block.memory + index * itemSize % WORD) % WORD

/-- The class `MemoryManager`; `heap` is the memory its pointers refer to. -/
structure MemoryManager where
  itemSize : Nat
  itemsPerBlock : Nat
  blockSize : Nat
  blocks : List Block
  head : Nat
  heap : Heap

/-- The method `addBlock`: the new state and the block `blocks.back()`.  When `Block::Block`
throws, `emplace_back` leaves the vector as it was. -/
def MemoryManager.addBlock (m : MemoryManager) (malloc : Nat → Nat) :
    Except Failure Block × MemoryManager :=
  match Block.create m.itemSize m.itemsPerBlock malloc with
  | .error e => (.error e, m)
  | .ok block => (.ok block, { m with blocks := m.blocks ++ [block] })

/-- The method `belongsTo(block, item)`. -/
def MemoryManager.belongsTo (m : MemoryManager) (block : Block) (item : Nat) : Bool :=
  decide (block.memory ≤ item) && decide (item < (block.memory + m.blockSize) % WORD)

/-- The method `obtainUnitializedItems(block, count)`: the address and the updated block. -/
def obtainUnitializedItems (itemSize itemsPerBlock : Nat) (block : Block) (count : Nat) :
    Except Failure (Nat × Block) :=
  if block.unitializedItems < count then .error .assertionFailed
  else
    let ret := block.itemAtIndex itemSize (subw itemsPerBlock block.unitializedItems)
    .ok (ret, { block with unitializedItems := subw block.unitializedItems count })

/-- The method `obtainUnitializedItem(block)`. -/
def obtainUnitializedItem (itemSize itemsPerBlock : Nat) (block : Block) :
    Except Failure (Nat × Block) :=
  obtainUnitializedItems itemSize itemsPerBlock block 1

/-- The tail of `newItem` and `newItems`: `obtainUnitializedItems(addBlock(), count)`. -/
def MemoryManager.obtainFromNewBlock (m : MemoryManager) (count : Nat) (malloc : Nat → Nat) :
    Except Failure Nat × MemoryManager :=
  match m.addBlock malloc with
  | (.error e, m1) => (.error e, m1)
  | (.ok block, m1) =>
    match obtainUnitializedItems m1.itemSize m1.itemsPerBlock block count with
    | .error e => (.error e, m1)
    | .ok (ret, block1) => (.ok ret, { m1 with blocks := m1.blocks.dropLast ++ [block1] })

/-- The members of a `MemoryManager` as initialised before the constructor body runs. -/
def MemoryManager.members (itemSize itemsPerBlock : Nat) (heap : Heap) : MemoryManager :=
  { itemSize := itemSize, itemsPerBlock := itemsPerBlock,
    blockSize := itemSize * itemsPerBlock % WORD, blocks := [], head := 0, heap := heap }

/-- The constructor `MemoryManager(itemSize, itemsPerBlock)`. -/
def MemoryManager.construct (itemSize itemsPerBlock : Nat) (malloc : Nat → Nat) (heap : Heap) :
    Except Failure MemoryManager :=
  if itemSize < PTR_SIZE then .error .invalidItemSize
  else
    match (MemoryManager.members itemSize itemsPerBlock heap).addBlock malloc with
    | (.error e, _) => .error e
    | (.ok _, m1) => .ok m1

/-- The method `newItem()`. -/
def MemoryManager.newItem (m : MemoryManager) (malloc : Nat → Nat) :
    Except Failure Nat × MemoryManager :=
  if m.head ≠ 0 then
    (.ok m.head, { m with head := storedPtr m.heap m.head })
  else
    match m.blocks.getLast? with
    | none => (.error .emptyBack, m)
    | some lastBlock =>
      if lastBlock.unitializedItems > 0 then
        match obtainUnitializedItem m.itemSize m.itemsPerBlock lastBlock with
        | .error e => (.error e, m)
        | .ok (ret, block1) => (.ok ret, { m with blocks := m.blocks.dropLast ++ [block1] })
      else
        m.obtainFromNewBlock 1 malloc

/-- The loop of `newItems`: the first block with enough uninitialized items serves. -/
def scanBlocks (itemSize itemsPerBlock count : Nat) :
    List Block → Option (Except Failure Nat × List Block)
  | [] => none
  | block :: rest =>
    if block.unitializedItems ≥ count then
      match obtainUnitializedItems itemSize itemsPerBlock block count with
      | .error e => some (.error e, block :: rest)
      | .ok (ret, block1) => some (.ok ret, block1 :: rest)
    else
      match scanBlocks itemSize itemsPerBlock count rest with
      | none => none
      | some (r, rest1) => some (r, block :: rest1)

/-- The method `newItems(count)`. -/
def MemoryManager.newItems (m : MemoryManager) (count : Nat) (malloc : Nat → Nat) :
    Except Failure Nat × MemoryManager :=
  if count > m.itemsPerBlock then (.error .assertionFailed, m)
  else
    match scanBlocks m.itemSize m.itemsPerBlock count m.blocks with
    | some (r, blocks1) => (r, { m with blocks := blocks1 })
    | none => m.obtainFromNewBlock count malloc

/-- The method `deleteItem(item)`. -/
def MemoryManager.deleteItem (m : MemoryManager) (item : Nat) : MemoryManager :=
  { m with heap := setStoredPtr m.heap item m.head, head := item }

/-- The lambda `addItemsFromBlock`: its `for` loop, started at index `i` with set `out`.
The index is an `unsigned int`; `none` means the fuel ran out before the loop ended. -/
def addItemsLoop (itemSize : Nat) (block : Block) (perhapsUsedInBlock : Nat) :
    Nat → Nat → List Nat → Option (List Nat)
  | 0, i, out => if i < perhapsUsedInBlock then none else some out
  | fuel + 1, i, out =>
    if i < perhapsUsedInBlock then
      addItemsLoop itemSize block perhapsUsedInBlock fuel ((i + 1) % UINT)
        (out.insert (block.itemAtIndex itemSize i))
    else some out

/-- The lambda `addItemsFromBlock(out, block)`. -/
def addItemsFromBlock (itemSize itemsPerBlock fuel : Nat) (out : List Nat) (block : Block) :
    Option (List Nat) :=
  addItemsLoop itemSize block (subw itemsPerBlock block.unitializedItems) fuel 0 out

/-- The loop over `blocks` in `allocatedItems`. -/
def addItemsFromBlocks (itemSize itemsPerBlock fuel : Nat) :
    List Block → List Nat → Option (List Nat)
  | [], out => some out
  | block :: rest, out =>
    match addItemsFromBlock itemSize itemsPerBlock fuel out block with
    | none => none
    | some out1 => addItemsFromBlocks itemSize itemsPerBlock fuel rest out1

/-- The `while` loop of `allocatedItems` over the free pointers list. -/
def eraseFreed (heap : Heap) : Nat → Nat → List Nat → Option (List Nat)
  | 0, itr, ret => if itr ≠ 0 then none else some ret
  | fuel + 1, itr, ret =>
    if itr ≠ 0 then eraseFreed heap fuel (storedPtr heap itr) (ret.erase itr) else some ret

/-- The method `allocatedItems()`; each loop may run for `fuel` iterations. -/
def MemoryManager.allocatedItems (m : MemoryManager) (fuel : Nat) : Option (List Nat) :=
  match addItemsFromBlocks m.itemSize m.itemsPerBlock fuel m.blocks [] with
  | none => none
  | some ret => eraseFreed m.heap fuel m.head ret

/-! ## The C boundary -/

/-- The boundary function `newManager(itemSize, itemsPerBlock)`. -/
def newManager (itemSize itemsPerBlock : Nat) (malloc : Nat → Nat) (heap : Heap) :
    Except Failure MemoryManager :=
  MemoryManager.construct itemSize itemsPerBlock malloc heap

/-- The boundary function `newItem(manager)`. -/
def newItem (manager : MemoryManager) (malloc : Nat → Nat) :
    Except Failure Nat × MemoryManager :=
  manager.newItem malloc

/-- The boundary function `newItems(manager, count)`. -/
def newItems (manager : MemoryManager) (count : Nat) (malloc : Nat → Nat) :
    Except Failure Nat × MemoryManager :=
  manager.newItems count malloc

/-- The boundary function `deleteItem(manager, item)`. -/
def deleteItem (manager : MemoryManager) (item : Nat) : MemoryManager :=
  manager.deleteItem item

/-! ## Runs of the manager

The manager is run together with two ghost sets that the specification talks about: the
addresses handed out and not yet deallocated, and the addresses returned by an allocate call
and not deleted since. -/

/-- Membership of `x` in the run `a + j * itemSize`, `j < count`. -/
def inRun (a itemSize count x : Nat) : Bool :=
  decide (a ≤ x) && decide ((x - a) % itemSize = 0) && decide ((x - a) / itemSize < count)

/-- A manager together with the ghost sets of live and of returned addresses. -/
structure Sys where
  mgr : MemoryManager
  live : Nat → Bool
  returned : Nat → Bool

/-- The calls a client can make; `write` stores a byte into a slot the client owns. -/
inductive Op where
  | newItem (malloc : Nat → Nat)
  | newItems (count : Nat) (malloc : Nat → Nat)
  | deleteItem (item : Nat)
  | write (slot offset : Nat) (byte : Fin 256)

/-- One call: its outcome (the returned address, if the call returns one) and the state
it leaves behind. -/
def step (s : Sys) : Op → Except Failure (Option Nat) × Sys
  | .newItem malloc =>
    match s.mgr.newItem malloc with
    | (.error e, m) => (.error e, { s with mgr := m })
    | (.ok a, m) =>
      (.ok (some a),
        { mgr := m, live := fun x => x == a || s.live x,
          returned := fun x => x == a || s.returned x })
  | .newItems count malloc =>
    match s.mgr.newItems count malloc with
    | (.error e, m) => (.error e, { s with mgr := m })
    | (.ok a, m) =>
      (.ok (some a),
        { mgr := m, live := fun x => inRun a s.mgr.itemSize count x || s.live x,
          returned := fun x => x == a || s.returned x })
  | .deleteItem item =>
    (.ok none,
      { mgr := s.mgr.deleteItem item, live := fun x => x != item && s.live x,
        returned := fun x => x != item && s.returned x })
  | .write slot offset byte =>
    (.ok none, { s with mgr := { s.mgr with heap := setByte s.mgr.heap (slot + offset) byte } })

/-- What a well-behaved `malloc` may answer to the request of `Block::Block`: null, or a
buffer of the requested size inside the address space, away from every buffer in use (and
at a pointer of its own, also when the requested size is zero). -/
def MallocOk (m : MemoryManager) (malloc : Nat → Nat) : Prop :=
  malloc (m.itemSize * m.itemsPerBlock % WORD) = 0 ∨
    (malloc (m.itemSize * m.itemsPerBlock % WORD) + m.itemSize * m.itemsPerBlock % WORD ≤ WORD ∧
      ∀ b ∈ m.blocks,
        malloc (m.itemSize * m.itemsPerBlock % WORD) ≠ b.memory ∧
        (malloc (m.itemSize * m.itemsPerBlock % WORD) + m.itemSize * m.itemsPerBlock % WORD
            ≤ b.memory ∨
          b.memory + m.itemSize * m.itemsPerBlock % WORD
            ≤ malloc (m.itemSize * m.itemsPerBlock % WORD)))

instance (m : MemoryManager) (malloc : Nat → Nat) : Decidable (MallocOk m malloc) := by
  unfold MallocOk; infer_instance

/-- The request `Block::Block` passes to `malloc`. -/
def MemoryManager.request (m : MemoryManager) : Nat := m.itemSize * m.itemsPerBlock % WORD

/-- The calls the specification allows in state `s`. -/
def ValidOp (s : Sys) : Op → Prop
  | .newItem malloc => MallocOk s.mgr malloc
  | .newItems count malloc => count ≤ s.mgr.itemsPerBlock ∧ MallocOk s.mgr malloc
  | .deleteItem item => s.live item = true
  | .write slot offset _ => s.live slot = true ∧ offset < s.mgr.itemSize

instance (s : Sys) (op : Op) : Decidable (ValidOp s op) := by
  cases op <;> unfold ValidOp <;> infer_instance

/-- The state right after `newManager(itemSize, itemsPerBlock)` returned `m`. -/
def Sys.initial (m : MemoryManager) : Sys :=
  { mgr := m, live := fun _ => false, returned := fun _ => false }

/-- States reachable from construction by calls that satisfy `allowed` and are valid.
A call that throws "out of memory" leaves the client running in the state it left. -/
inductive ReachableBy (allowed : Op → Prop) : Sys → Prop where
  | init (itemSize itemsPerBlock : Nat) (malloc : Nat → Nat) (heap : Heap) (m : MemoryManager) :
      itemSize < WORD → itemsPerBlock < WORD →
      MallocOk (MemoryManager.members itemSize itemsPerBlock heap) malloc →
      newManager itemSize itemsPerBlock malloc heap = .ok m →
      ReachableBy allowed (Sys.initial m)
  | step (s : Sys) (op : Op) (r : Option Nat) (s1 : Sys) :
      ReachableBy allowed s → allowed op → ValidOp s op → step s op = (.ok r, s1) →
      ReachableBy allowed s1
  | fail (s : Sys) (op : Op) (s1 : Sys) :
      ReachableBy allowed s → allowed op → ValidOp s op →
      step s op = (.error .outOfMemory, s1) →
      ReachableBy allowed s1

/-- States reachable from construction by valid calls. -/
def Reachable (s : Sys) : Prop := ReachableBy (fun _ => True) s

/-- Runs a list of calls, stopping at the first that fails; returns the results. -/
def runOps : Sys → List Op → List (Option Nat) × Sys
  | s, [] => ([], s)
  | s, op :: ops =>
    match step s op with
    | (.error _, s1) => ([], s1)
    | (.ok r, s1) => ((runOps s1 ops).1.cons r, (runOps s1 ops).2)

/-! ## Specification vocabulary and concrete inputs -/

/-- The product `itemSize * itemsPerBlock` fits a `size_t`. -/
def NoOverflow (m : MemoryManager) : Prop := m.itemSize * m.itemsPerBlock < WORD

instance (m : MemoryManager) : Decidable (NoOverflow m) := by
  unfold NoOverflow; infer_instance

/-- The address `x` is a slot of the handed-out part of a block: `memory + i * itemSize`
with `i < itemsPerBlock - unitializedItems`. -/
def Handed (itemSize itemsPerBlock : Nat) (blocks : List Block) (x : Nat) : Prop :=
  ∃ b ∈ blocks, ∃ i, i < itemsPerBlock - b.unitializedItems ∧ x = b.memory + i * itemSize

/-- The address `x` is a slot that some block of the manager has handed out. -/
def HandedOut (m : MemoryManager) (x : Nat) : Prop :=
  Handed m.itemSize m.itemsPerBlock m.blocks x

/-- The free pointers list: from `head`, following stored pointers, the addresses `fl` are
visited in order and then null is reached. -/
def FreeChain (heap : Heap) : Nat → List Nat → Prop
  | h, [] => h = 0
  | h, x :: xs => h = x ∧ x ≠ 0 ∧ FreeChain heap (storedPtr heap x) xs

/-- The buffers at `p` and `q`, each of `size` bytes, do not overlap. -/
def Apart (size p q : Nat) : Prop := p + size ≤ q ∨ q + size ≤ p

/-- The invariant of the manager, `fl` being the content of the free pointers list. -/
structure Inv (m : MemoryManager) (live : Nat → Bool) (fl : List Nat) : Prop where
  item8 : PTR_SIZE ≤ m.itemSize
  blocks_ne : m.blocks ≠ []
  uninit_le : ∀ b ∈ m.blocks, b.unitializedItems ≤ m.itemsPerBlock
  mem_ok : ∀ p ∈ m.blocks.map Block.memory, p ≠ 0 ∧ p + m.itemSize * m.itemsPerBlock ≤ WORD
  disj : (m.blocks.map Block.memory).Pairwise (Apart (m.itemSize * m.itemsPerBlock))
  chain : FreeChain m.heap m.head fl
  nodup : fl.Nodup
  free_handed : ∀ x ∈ fl, HandedOut m x
  live_iff : ∀ x, live x = true ↔ HandedOut m x ∧ x ∉ fl

/-- The list `blocks1` is `blocks` after one block served `count` items at `ret`. -/
def Served (itemSize itemsPerBlock count : Nat) (blocks blocks1 : List Block) (ret : Nat)
    (idx : Nat) (mem : Nat) : Prop :=
  ∃ pre b post, blocks = pre ++ b :: post ∧ count ≤ b.unitializedItems ∧
    blocks1 = pre ++ { b with unitializedItems := b.unitializedItems - count } :: post ∧
    idx = itemsPerBlock - b.unitializedItems ∧ mem = b.memory ∧
    ret = b.itemAtIndex itemSize idx

/-- How `newItem` (with an empty free list, `count = 1`) and `newItems` end: with
"out of memory" and the state unchanged, with another failure, or with `count` items served
by a block of the manager or by a block added for the purpose. -/
def AllocStep (m : MemoryManager) (count : Nat) (malloc : Nat → Nat)
    (r : Except Failure Nat) (m1 : MemoryManager) : Prop :=
  (r = .error .outOfMemory ∧ m1 = m ∧ malloc m.request = 0) ∨
  (∃ e, r = .error e ∧ e ≠ .outOfMemory) ∨
  (∃ ret idx mem blocks0 blocks1, r = .ok ret ∧
    (blocks0 = m.blocks ∨
      (malloc m.request ≠ 0 ∧
        blocks0 = m.blocks ++
          [{ unitializedItems := m.itemsPerBlock, memory := malloc m.request }])) ∧
    Served m.itemSize m.itemsPerBlock count blocks0 blocks1 ret idx mem ∧
    m1 = { m with blocks := blocks1 })

/-- Checks that every call of `ops`, made in order from `s`, is valid and returns. -/
def validRun : Sys → List Op → Bool
  | _, [] => true
  | s, op :: ops =>
    decide (ValidOp s op) &&
      (match step s op with
       | (.ok _, s1) => validRun s1 ops
       | (.error _, _) => false)

/-- Calls other than `newItems(0)`. -/
def PositiveCount : Op → Prop
  | .newItems count _ => 1 ≤ count
  | _ => True

instance (op : Op) : Decidable (PositiveCount op) := by
  cases op <;> unfold PositiveCount <;> infer_instance

/-- A heap of zero bytes. -/
def zeroHeap : Heap := fun _ => 0

/-- An allocator that answers with the pointer `p`. -/
def mallocAt (p : Nat) : Nat → Nat := fun _ => p

/-- The state right after `newManager(itemSize, itemsPerBlock)` got its buffer at `p`. -/
def startAt (itemSize itemsPerBlock p : Nat) : Sys :=
  match newManager itemSize itemsPerBlock (mallocAt p) zeroHeap with
  | .ok m => Sys.initial m
  | .error _ => Sys.initial (MemoryManager.members itemSize itemsPerBlock zeroHeap)

/-- A run on a pool of 16-byte items, 4 per block: two blocks, a run of two items, one
item deleted, one byte written by a client. -/
def sampleOps : List Op :=
  [.newItem (mallocAt 0), .newItem (mallocAt 0), .newItems 2 (mallocAt 0),
   .newItem (mallocAt 8192), .deleteItem 4112, .write 4096 3 7]

/-- The state after `sampleOps` on `newManager(16, 4)`. -/
def sampleState : Sys := (runOps (startAt 16 4 4096) sampleOps).2

/-- Five allocations on a pool whose `itemSize * itemsPerBlock` wraps around to 8:
itemSize is `2^63 + 2`, itemsPerBlock is 4, the buffers are at 4096 and 8192. -/
def wrappedOps : List Op :=
  [.newItem (mallocAt 0), .newItem (mallocAt 0), .newItem (mallocAt 0), .newItem (mallocAt 0),
   .newItem (mallocAt 8192)]

/-- The state after `wrappedOps`: the slots at 4096 and 4100 overlap. -/
def wrappedState : Sys := (runOps (startAt (2 ^ 63 + 2) 4 4096) wrappedOps).2

/-- The state `wrappedState` after `deleteItem` of 8192, 4096 and 4100. -/
def wrappedFreed : Sys :=
  (runOps wrappedState [.deleteItem 8192, .deleteItem 4096, .deleteItem 4100]).2

/-- A pool of 8-byte items, `2^32` per block, after `newItems(2^32)`. -/
def hugeState : Sys := (runOps (startAt 8 (2 ^ 32) (2 ^ 40)) [.newItems (2 ^ 32) (mallocAt 0)]).2

/-- A pool whose `itemSize * itemsPerBlock` wraps around to `2^33`: itemSize is `2^33`,
itemsPerBlock is `2^31 + 1`, the first buffer is at `2^40`. -/
def adjacentStart : Sys := startAt (2 ^ 33) (2 ^ 31 + 1) (2 ^ 40)

/-- The state `adjacentStart` after two calls of `newItem`. -/
def adjacentTwo : Sys := (runOps adjacentStart [.newItem (mallocAt 0), .newItem (mallocAt 0)]).2

/-- The state `adjacentStart` after `newItems(2)`. -/
def adjacentRun : Sys := (runOps adjacentStart [.newItems 2 (mallocAt 0)]).2

/-- The state after `newItems(0)` on `newManager(16, 4)`. -/
def emptyRunState : Sys := (runOps (startAt 16 4 4096) [.newItems 0 (mallocAt 0)]).2

/-- Three allocations and two deallocations on the pool of `wrappedOps`, then two
allocations that empty the free list again. -/
def strayOps : List Op :=
  [.newItem (mallocAt 0), .newItem (mallocAt 0), .newItem (mallocAt 0), .deleteItem 4096,
   .deleteItem 4100, .newItem (mallocAt 0), .newItem (mallocAt 0)]

/-- The state after `strayOps`. -/
def strayState : Sys := (runOps (startAt (2 ^ 63 + 2) 4 4096) strayOps).2

/-- A pool of 16-byte items, one per block, whose only block is used up. -/
def fullState : Sys := (runOps (startAt 16 1 4096) [.newItem (mallocAt 0)]).2

/-- The calls `newItem` and `deleteItem`. -/
def SingleItemCall : Op → Prop
  | .newItem _ => True
  | .deleteItem _ => True
  | _ => False

instance (op : Op) : Decidable (SingleItemCall op) := by
  cases op <;> unfold SingleItemCall <;> infer_instance

/-! ## Counters, slots and the addresses ever handed out -/

/-- The counters of the manager are in range: `itemsPerBlock` is a `size_t`, there is a
block, and no block has more uninitialized items than a block holds. -/
def Counters (m : MemoryManager) : Prop :=
  m.itemsPerBlock < WORD ∧ m.blocks ≠ [] ∧
    ∀ b ∈ m.blocks, b.unitializedItems ≤ m.itemsPerBlock

/-- The address `x` is a slot of a block: `memory + i * itemSize` with `i < itemsPerBlock`. -/
def IsSlot (m : MemoryManager) (x : Nat) : Prop :=
  ∃ b ∈ m.blocks, ∃ i, i < m.itemsPerBlock ∧ x = b.memory + i * m.itemSize

/-- Calls other than `newItems`. -/
def WithoutNewItems : Op → Prop
  | .newItems _ _ => False
  | _ => True

instance (op : Op) : Decidable (WithoutNewItems op) := by
  cases op <;> unfold WithoutNewItems <;> infer_instance

/-- The addresses ever handed out, after a call `op` that returned `r` in state `s`:
`newItem` adds the address it returned, `newItems(count)` the `count` addresses of its
run. -/
def everAfter (s : Sys) (ever : Nat → Bool) : Op → Option Nat → Nat → Bool
  | .newItem _, some a => fun x => x == a || ever x
  | .newItems count _, some a => fun x => inRun a s.mgr.itemSize count x || ever x
  | _, _ => ever

/-- States reachable from construction by valid calls, together with the set of the
addresses that were ever handed out on the way. -/
inductive ReachableEver : Sys → (Nat → Bool) → Prop where
  | init (itemSize itemsPerBlock : Nat) (malloc : Nat → Nat) (heap : Heap) (m : MemoryManager) :
      itemSize < WORD → itemsPerBlock < WORD →
      MallocOk (MemoryManager.members itemSize itemsPerBlock heap) malloc →
      newManager itemSize itemsPerBlock malloc heap = .ok m →
      ReachableEver (Sys.initial m) (fun _ => false)
  | step (s : Sys) (ever : Nat → Bool) (op : Op) (r : Option Nat) (s1 : Sys) :
      ReachableEver s ever → ValidOp s op → step s op = (.ok r, s1) →
      ReachableEver s1 (everAfter s ever op r)
  | fail (s : Sys) (ever : Nat → Bool) (op : Op) (s1 : Sys) :
      ReachableEver s ever → ValidOp s op → step s op = (.error .outOfMemory, s1) →
      ReachableEver s1 ever

instance (m : MemoryManager) (x : Nat) : Decidable (HandedOut m x) := by
  unfold HandedOut Handed; infer_instance

instance (m : MemoryManager) (x : Nat) : Decidable (IsSlot m x) := by
  unfold IsSlot; infer_instance

/-- The addresses ever handed out by the calls `ops`, made in order from `s`, added to
`ever`. -/
def runEver : Sys → (Nat → Bool) → List Op → Nat → Bool
  | _, ever, [] => ever
  | s, ever, op :: ops =>
    match step s op with
    | (.ok r, s1) => runEver s1 (everAfter s ever op r) ops
    | (.error _, _) => ever

/-- A run of `newItem` and `deleteItem` on a pool of 16-byte items, 2 per block. -/
def singleOps : List Op :=
  [.newItem (mallocAt 0), .newItem (mallocAt 0), .newItem (mallocAt 8192), .deleteItem 4096]

/-- The state after `singleOps` on `newManager(16, 2)`: two blocks, one free slot. -/
def twoBlockState : Sys := (runOps (startAt 16 2 4096) singleOps).2

/-- The state `wrappedState` after `deleteItem` of 8192 and 4096. -/
def wrappedTwoFreed : Sys := (runOps wrappedState [.deleteItem 8192, .deleteItem 4096]).2

/-- On the pool of `adjacentStart`: `newItem`, then `newItems(2^31 + 1)`, which gets a new
block right behind the buffer of the first. -/
def adjacentOps : List Op :=
  [.newItem (mallocAt 0), .newItems (2 ^ 31 + 1) (mallocAt (2 ^ 40 + 2 ^ 33))]

/-- The state after `adjacentOps`. -/
def adjacentBehind : Sys := (runOps adjacentStart adjacentOps).2

/-- The state `adjacentStart` after `newItems(2^31 + 1)`: the only block is used up. -/
def adjacentFull : Sys := (runOps adjacentStart [.newItems (2 ^ 31 + 1) (mallocAt 0)]).2

/-! ## Characterisation of the operations -/

theorem subw_eq (a b : Nat) (hb : b ≤ a) (ha : a < WORD) : subw a b = a - b := by
  unfold subw
  have hb2 : b % WORD = b := Nat.mod_eq_of_lt (lt_of_le_of_lt hb ha)
  rw [hb2]
  have : a + WORD - b = (a - b) + WORD := by omega
  rw [this, Nat.add_mod_right]
  exact Nat.mod_eq_of_lt (by omega)

theorem obtain_ok (S ipb k : Nat) (b : Block) (hk : k ≤ b.unitializedItems)
    (hb : b.unitializedItems ≤ ipb) (hipb : ipb < WORD) :
    obtainUnitializedItems S ipb b k =
      .ok (b.itemAtIndex S (ipb - b.unitializedItems),
           { b with unitializedItems := b.unitializedItems - k }) := by
  unfold obtainUnitializedItems
  have h1 : ¬ b.unitializedItems < k := by omega
  simp only [h1, if_false]
  rw [subw_eq _ _ hb hipb, subw_eq _ _ hk (by omega)]

theorem obtain_fail (S ipb k : Nat) (b : Block) (hk : b.unitializedItems < k) :
    obtainUnitializedItems S ipb b k = .error .assertionFailed := by
  unfold obtainUnitializedItems
  simp [hk]

theorem addBlock_eq (m : MemoryManager) (malloc : Nat → Nat) :
    m.addBlock malloc =
      if malloc m.request = 0 then (.error .outOfMemory, m)
      else (.ok { unitializedItems := m.itemsPerBlock, memory := malloc m.request },
            { m with blocks := m.blocks ++
                [{ unitializedItems := m.itemsPerBlock, memory := malloc m.request }] }) := by
  unfold MemoryManager.addBlock Block.create MemoryManager.request
  by_cases h : malloc (m.itemSize * m.itemsPerBlock % WORD) = 0
  · simp [h]
  · simp [h]

theorem obtainFromNewBlock_spec (m : MemoryManager) (k : Nat) (malloc : Nat → Nat)
    (hipb : m.itemsPerBlock < WORD) (r : Except Failure Nat) (m1 : MemoryManager)
    (h : m.obtainFromNewBlock k malloc = (r, m1)) : AllocStep m k malloc r m1 := by
  unfold MemoryManager.obtainFromNewBlock at h
  rw [addBlock_eq] at h
  by_cases hp : malloc m.request = 0
  · simp only [hp, if_true, Prod.mk.injEq] at h
    obtain ⟨rfl, rfl⟩ := h
    exact Or.inl ⟨rfl, rfl, hp⟩
  · simp only [hp, if_false] at h
    by_cases hk : k ≤ m.itemsPerBlock
    · rw [obtain_ok m.itemSize m.itemsPerBlock k
        { unitializedItems := m.itemsPerBlock, memory := malloc m.request } hk (le_refl _)
        hipb] at h
      simp only [Prod.mk.injEq] at h
      obtain ⟨rfl, rfl⟩ := h
      refine Or.inr (Or.inr ⟨_, m.itemsPerBlock - m.itemsPerBlock, malloc m.request, _, _, rfl,
        Or.inr ⟨hp, rfl⟩, ?_, rfl⟩)
      refine ⟨m.blocks, _, [], rfl, hk, ?_, rfl, rfl, rfl⟩
      simp [List.dropLast_concat]
    · rw [obtain_fail m.itemSize m.itemsPerBlock k
        { unitializedItems := m.itemsPerBlock, memory := malloc m.request }
        (by simpa using hk)] at h
      simp only [Prod.mk.injEq] at h
      exact Or.inr (Or.inl ⟨_, h.1.symm, by decide⟩)

theorem inRun_iff (a S k x : Nat) (hS : 0 < S) :
    inRun a S k x = true ↔ ∃ j, j < k ∧ x = a + j * S := by
  unfold inRun
  simp only [Bool.and_eq_true, decide_eq_true_eq]
  constructor
  · rintro ⟨⟨h1, h2⟩, h3⟩
    refine ⟨(x - a) / S, h3, ?_⟩
    have := Nat.div_add_mod (x - a) S
    rw [h2, Nat.add_zero, Nat.mul_comm] at this
    omega
  · rintro ⟨j, hj, rfl⟩
    have e : a + j * S - a = j * S := by omega
    rw [e]
    refine ⟨⟨by omega, Nat.mul_mod_left j S⟩, ?_⟩
    rw [Nat.mul_div_cancel j hS]; exact hj

theorem inRun_zero (a S x : Nat) : inRun a S 0 x = false := by
  unfold inRun; simp

theorem scanBlocks_none (S ipb k : Nat) (blocks : List Block)
    (h : scanBlocks S ipb k blocks = none) : ∀ b ∈ blocks, b.unitializedItems < k := by
  induction blocks with
  | nil => intro b hb; cases hb
  | cons c rest ih =>
    unfold scanBlocks at h
    by_cases hc : c.unitializedItems ≥ k
    · simp only [hc, if_true] at h
      cases hob : obtainUnitializedItems S ipb c k with
      | error e => rw [hob] at h; cases h
      | ok v => rw [hob] at h; cases h
    · simp only [hc, if_false] at h
      cases hs : scanBlocks S ipb k rest with
      | none =>
        intro b hb
        rcases List.mem_cons.mp hb with rfl | hb
        · omega
        · exact ih hs b hb
      | some v => rw [hs] at h; cases h

theorem scanBlocks_some (S ipb k : Nat) (hipb : ipb < WORD) (blocks : List Block)
    (hun : ∀ b ∈ blocks, b.unitializedItems ≤ ipb)
    (r : Except Failure Nat) (blocks1 : List Block)
    (h : scanBlocks S ipb k blocks = some (r, blocks1)) :
    ∃ ret idx mem, r = .ok ret ∧ Served S ipb k blocks blocks1 ret idx mem := by
  induction blocks generalizing r blocks1 with
  | nil => simp [scanBlocks] at h
  | cons c rest ih =>
    unfold scanBlocks at h
    by_cases hc : c.unitializedItems ≥ k
    · simp only [hc, if_true] at h
      rw [obtain_ok S ipb k c hc (hun c (List.mem_cons_self _ _)) hipb] at h
      simp only [Option.some.injEq, Prod.mk.injEq] at h
      obtain ⟨rfl, rfl⟩ := h
      exact ⟨_, _, _, rfl, [], c, rest, rfl, hc, rfl, rfl, rfl, rfl⟩
    · simp only [hc, if_false] at h
      cases hs : scanBlocks S ipb k rest with
      | none => rw [hs] at h; cases h
      | some v =>
        obtain ⟨r1, rest1⟩ := v
        rw [hs] at h
        simp only [Option.some.injEq, Prod.mk.injEq] at h
        obtain ⟨rfl, rfl⟩ := h
        obtain ⟨ret, idx, mem, hr, pre, b, post, h1, h2, h3, h4, h5, h6⟩ :=
          ih (fun b hb => hun b (List.mem_cons_of_mem _ hb)) r1 rest1 hs
        refine ⟨ret, idx, mem, hr, c :: pre, b, post, ?_, h2, ?_, h4, h5, h6⟩
        · simp [h1]
        · simp [h3]

theorem loadBytes_congr (h1 h2 : Heap) (n : Nat) :
    ∀ a, (∀ k, k < n → h1 (a + k) = h2 (a + k)) → loadBytes h1 a n = loadBytes h2 a n := by
  induction n with
  | zero => intro a _; rfl
  | succ n ih =>
    intro a h
    have h0 : h1 a = h2 a := by simpa using h 0 (Nat.succ_pos n)
    have hrest : loadBytes h1 (a + 1) n = loadBytes h2 (a + 1) n := by
      apply ih
      intro k hk
      have := h (k + 1) (by omega)
      simpa [Nat.add_assoc, Nat.add_comm 1 k] using this
    simp [loadBytes, h0, hrest]

theorem loadBytes_set (heap : Heap) (a v : Nat) (n : Nat) :
    ∀ k, k + n ≤ PTR_SIZE →
      loadBytes (setStoredPtr heap a v) (a + k) n = v / 256 ^ k % 256 ^ n := by
  induction n with
  | zero => intro k _; simp [loadBytes, Nat.mod_one]
  | succ n ih =>
    intro k hk
    have hin : a ≤ a + k ∧ a + k < a + PTR_SIZE := ⟨by omega, by omega⟩
    have hrec := ih (k + 1) (by omega)
    rw [← Nat.add_assoc] at hrec
    simp only [loadBytes, hrec]
    simp only [setStoredPtr, hin, and_self, if_true, Nat.add_sub_cancel_left]
    have e1 : v / 256 ^ (k + 1) = v / 256 ^ k / 256 := by
      rw [pow_succ, Nat.div_div_eq_div_mul]
    rw [e1, pow_succ, Nat.mul_comm (256 ^ n) 256, Nat.mod_mul]

theorem storedPtr_set_same (heap : Heap) (a v : Nat) (hv : v < WORD) :
    storedPtr (setStoredPtr heap a v) a = v := by
  have h := loadBytes_set heap a v PTR_SIZE 0 (by simp)
  simp only [Nat.add_zero, pow_zero, Nat.div_one] at h
  unfold storedPtr
  rw [h]
  exact Nat.mod_eq_of_lt (by simpa [WORD, PTR_SIZE] using hv)

theorem storedPtr_set_other (heap : Heap) (a v b : Nat) (h : a + PTR_SIZE ≤ b ∨ b + PTR_SIZE ≤ a) :
    storedPtr (setStoredPtr heap a v) b = storedPtr heap b := by
  unfold storedPtr
  apply loadBytes_congr
  intro k hk
  have : ¬ (a ≤ b + k ∧ b + k < a + PTR_SIZE) := by omega
  simp [setStoredPtr, this]

theorem storedPtr_setByte_other (heap : Heap) (c b : Nat) (v : Fin 256)
    (h : c < b ∨ b + PTR_SIZE ≤ c) :
    storedPtr (setByte heap c v) b = storedPtr heap b := by
  unfold storedPtr
  apply loadBytes_congr
  intro k hk
  have : b + k ≠ c := by omega
  simp [setByte, this]

theorem itemAtIndex_eq (b : Block) (S ipb i : Nat) (hi : i < ipb)
    (hm : b.memory + S * ipb ≤ WORD) (h8 : 0 < S) :
    b.itemAtIndex S i = b.memory + i * S := by
  unfold Block.itemAtIndex
  have h1 : (i + 1) * S ≤ S * ipb := by
    rw [Nat.mul_comm S ipb]; exact Nat.mul_le_mul_right S hi
  have h2 : (i + 1) * S = i * S + S := by ring
  have h3 : i * S < WORD := by omega
  rw [Nat.mod_eq_of_lt h3, Nat.mod_eq_of_lt (by omega)]

/-- Two slots of buffers that do not overlap are either equal or a whole item apart. -/
theorem slot_apart (S ipb : Nat) (mems : List Nat) (hd : mems.Pairwise (Apart (S * ipb)))
    (p q i j : Nat) (hp : p ∈ mems) (hq : q ∈ mems) (hi : i < ipb) (hj : j < ipb)
    (hne : p + i * S ≠ q + j * S) :
    p + i * S + S ≤ q + j * S ∨ q + j * S + S ≤ p + i * S := by
  have hi1 : i * S + S ≤ S * ipb := by
    have : (i + 1) * S ≤ ipb * S := Nat.mul_le_mul_right S hi
    have e : (i + 1) * S = i * S + S := by ring
    rw [Nat.mul_comm S ipb]; omega
  have hj1 : j * S + S ≤ S * ipb := by
    have : (j + 1) * S ≤ ipb * S := Nat.mul_le_mul_right S hj
    have e : (j + 1) * S = j * S + S := by ring
    rw [Nat.mul_comm S ipb]; omega
  by_cases hpq : p = q
  · subst hpq
    have hij : i ≠ j := by rintro rfl; exact hne rfl
    rcases Nat.lt_or_gt_of_ne hij with h | h
    · left
      have : (i + 1) * S ≤ j * S := Nat.mul_le_mul_right S h
      have e : (i + 1) * S = i * S + S := by ring
      omega
    · right
      have : (j + 1) * S ≤ i * S := Nat.mul_le_mul_right S h
      have e : (j + 1) * S = j * S + S := by ring
      omega
  · have hsym : Symmetric (Apart (S * ipb)) := by
      intro a b h; exact h.symm
    have := List.Pairwise.forall hsym hd hp hq hpq
    rcases this with h | h
    · left; omega
    · right; omega

theorem newItem_spec (m : MemoryManager) (malloc : Nat → Nat)
    (hipb : m.itemsPerBlock < WORD)
    (hun : ∀ b ∈ m.blocks, b.unitializedItems ≤ m.itemsPerBlock)
    (r : Except Failure Nat) (m1 : MemoryManager)
    (h : m.newItem malloc = (r, m1)) :
    (m.head ≠ 0 ∧ r = .ok m.head ∧ m1 = { m with head := storedPtr m.heap m.head }) ∨
    (m.head = 0 ∧ AllocStep m 1 malloc r m1) := by
  unfold MemoryManager.newItem at h
  by_cases hh : m.head = 0
  · right
    refine ⟨hh, ?_⟩
    rw [if_neg (not_not.mpr hh)] at h
    cases hl : m.blocks.getLast? with
    | none =>
      rw [hl] at h
      simp only [Prod.mk.injEq] at h
      exact Or.inr (Or.inl ⟨_, h.1.symm, by decide⟩)
    | some last =>
      rw [hl] at h
      simp only at h
      have hbl : m.blocks.dropLast ++ [last] = m.blocks :=
        List.dropLast_append_getLast? last (by simp [hl])
      have hmem : last ∈ m.blocks := by
        rw [← hbl]; simp
      by_cases hu : last.unitializedItems > 0
      · simp only [hu, if_true] at h
        unfold obtainUnitializedItem at h
        rw [obtain_ok m.itemSize m.itemsPerBlock 1 last hu (hun last hmem) hipb] at h
        simp only [Prod.mk.injEq] at h
        obtain ⟨rfl, rfl⟩ := h
        refine Or.inr (Or.inr ⟨_, m.itemsPerBlock - last.unitializedItems, last.memory,
          m.blocks, _, rfl, Or.inl rfl, ?_, rfl⟩)
        exact ⟨m.blocks.dropLast, last, [], hbl.symm, hu, rfl, rfl, rfl, rfl⟩
      · simp only [hu, if_false] at h
        exact obtainFromNewBlock_spec m 1 malloc hipb r m1 h
  · left
    simp only [ne_eq, hh, not_false_eq_true, if_true, Prod.mk.injEq] at h
    exact ⟨hh, h.1.symm, h.2.symm⟩

theorem newItems_spec (m : MemoryManager) (k : Nat) (malloc : Nat → Nat)
    (hipb : m.itemsPerBlock < WORD)
    (hun : ∀ b ∈ m.blocks, b.unitializedItems ≤ m.itemsPerBlock)
    (r : Except Failure Nat) (m1 : MemoryManager)
    (h : m.newItems k malloc = (r, m1)) : AllocStep m k malloc r m1 := by
  unfold MemoryManager.newItems at h
  by_cases hk : k > m.itemsPerBlock
  · simp only [hk, if_true, Prod.mk.injEq] at h
    exact Or.inr (Or.inl ⟨_, h.1.symm, by decide⟩)
  · simp only [hk, if_false] at h
    cases hs : scanBlocks m.itemSize m.itemsPerBlock k m.blocks with
    | none =>
      rw [hs] at h
      exact obtainFromNewBlock_spec m k malloc hipb r m1 h
    | some v =>
      obtain ⟨r1, blocks1⟩ := v
      rw [hs] at h
      simp only [Prod.mk.injEq] at h
      obtain ⟨rfl, rfl⟩ := h
      obtain ⟨ret, idx, mem, hr, hserved⟩ :=
        scanBlocks_some m.itemSize m.itemsPerBlock k hipb m.blocks hun r1 blocks1 hs
      exact Or.inr (Or.inr ⟨ret, idx, mem, m.blocks, blocks1, hr, Or.inl rfl, hserved, rfl⟩)

/-! ## Slots and blocks -/

theorem noOverflow_ipb (m : MemoryManager) (h8 : PTR_SIZE ≤ m.itemSize) (hno : NoOverflow m) :
    m.itemsPerBlock < WORD := by
  unfold NoOverflow at hno
  unfold PTR_SIZE at h8
  have : 1 * m.itemsPerBlock ≤ m.itemSize * m.itemsPerBlock :=
    Nat.mul_le_mul_right _ (by omega)
  omega

theorem request_eq (m : MemoryManager) (hno : NoOverflow m) :
    m.request = m.itemSize * m.itemsPerBlock := by
  unfold MemoryManager.request
  exact Nat.mod_eq_of_lt hno

theorem handed_append_fresh (S ipb : Nat) (blocks : List Block) (p x : Nat) :
    Handed S ipb (blocks ++ [{ unitializedItems := ipb, memory := p }]) x ↔
      Handed S ipb blocks x := by
  unfold Handed
  constructor
  · rintro ⟨b, hb, i, hi, hx⟩
    rcases List.mem_append.mp hb with hb | hb
    · exact ⟨b, hb, i, hi, hx⟩
    · simp only [List.mem_singleton] at hb
      subst hb
      simp at hi
  · rintro ⟨b, hb, i, hi, hx⟩
    exact ⟨b, List.mem_append_left _ hb, i, hi, hx⟩

theorem handed_served (S ipb k : Nat) (pre post : List Block) (b : Block)
    (hk : k ≤ b.unitializedItems) (hb : b.unitializedItems ≤ ipb) (x : Nat) :
    Handed S ipb (pre ++ { b with unitializedItems := b.unitializedItems - k } :: post) x ↔
      Handed S ipb (pre ++ b :: post) x ∨
        ∃ j, j < k ∧ x = b.memory + (ipb - b.unitializedItems + j) * S := by
  unfold Handed
  constructor
  · rintro ⟨c, hc, i, hi, hx⟩
    rcases List.mem_append.mp hc with hc | hc
    · exact Or.inl ⟨c, List.mem_append_left _ hc, i, hi, hx⟩
    · rcases List.mem_cons.mp hc with rfl | hc
      · simp only at hi hx
        by_cases hlt : i < ipb - b.unitializedItems
        · exact Or.inl ⟨b, by simp, i, hlt, hx⟩
        · refine Or.inr ⟨i - (ipb - b.unitializedItems), by omega, ?_⟩
          have : ipb - b.unitializedItems + (i - (ipb - b.unitializedItems)) = i := by omega
          rw [this]; exact hx
      · exact Or.inl ⟨c, by simp [hc], i, hi, hx⟩
  · rintro (⟨c, hc, i, hi, hx⟩ | ⟨j, hj, hx⟩)
    · rcases List.mem_append.mp hc with hc | hc
      · exact ⟨c, List.mem_append_left _ hc, i, hi, hx⟩
      · rcases List.mem_cons.mp hc with rfl | hc
        · exact ⟨{ c with unitializedItems := c.unitializedItems - k }, by simp, i,
            by simp only; omega, hx⟩
        · exact ⟨c, by simp [hc], i, hi, hx⟩
    · exact ⟨{ b with unitializedItems := b.unitializedItems - k }, by simp,
        ipb - b.unitializedItems + j, by simp only; omega, hx⟩

/-- Slots of buffers that do not overlap determine their buffer and their index. -/
theorem slot_inj (S ipb : Nat) (hS : 0 < S) (mems : List Nat)
    (hd : mems.Pairwise (Apart (S * ipb)))
    (p q i j : Nat) (hp : p ∈ mems) (hq : q ∈ mems) (hi : i < ipb) (hj : j < ipb)
    (he : p + i * S = q + j * S) : p = q ∧ i = j := by
  by_contra hcon
  by_cases hpq : p = q
  · subst hpq
    have : i * S = j * S := by omega
    have hij : i = j := Nat.eq_of_mul_eq_mul_right hS this
    exact hcon ⟨rfl, hij⟩
  · have hi1 : i * S + S ≤ S * ipb := by
      have : (i + 1) * S ≤ ipb * S := Nat.mul_le_mul_right S hi
      have e : (i + 1) * S = i * S + S := by ring
      rw [Nat.mul_comm S ipb]; omega
    have hj1 : j * S + S ≤ S * ipb := by
      have : (j + 1) * S ≤ ipb * S := Nat.mul_le_mul_right S hj
      have e : (j + 1) * S = j * S + S := by ring
      rw [Nat.mul_comm S ipb]; omega
    have hsym : Symmetric (Apart (S * ipb)) := by
      intro a b h; exact h.symm
    rcases List.Pairwise.forall hsym hd hp hq hpq with h | h
    · omega
    · omega

/-- A block is determined by its buffer when buffers are not empty and do not overlap. -/
theorem block_of_memory (size : Nat) (hsize : 0 < size) (blocks : List Block)
    (hd : (blocks.map Block.memory).Pairwise (Apart size))
    (b c : Block) (hb : b ∈ blocks) (hc : c ∈ blocks) (he : b.memory = c.memory) : b = c := by
  have hnd : (blocks.map Block.memory).Nodup := by
    refine List.Pairwise.imp ?_ hd
    intro p q hpq heq
    subst heq
    rcases hpq with h | h <;> omega
  exact List.inj_on_of_nodup_map hnd hb hc he

/-! ## The invariant is kept by the blocks -/

theorem inv_addBlock (m : MemoryManager) (live : Nat → Bool) (fl : List Nat)
    (malloc : Nat → Nat) (hinv : Inv m live fl) (hno : NoOverflow m)
    (hmal : MallocOk m malloc) (hp : malloc m.request ≠ 0) :
    Inv { m with blocks := m.blocks ++
            [{ unitializedItems := m.itemsPerBlock, memory := malloc m.request }] } live fl := by
  have hreq := request_eq m hno
  unfold MallocOk at hmal
  change malloc m.request = 0 ∨ (malloc m.request + m.request ≤ WORD ∧
    ∀ b ∈ m.blocks, malloc m.request ≠ b.memory ∧
      (malloc m.request + m.request ≤ b.memory ∨ b.memory + m.request ≤ malloc m.request))
    at hmal
  obtain ⟨p, hpe⟩ : ∃ p, p = malloc m.request := ⟨_, rfl⟩
  rw [← hpe] at hmal hp ⊢
  rw [hreq] at hmal
  rcases hmal with h0 | ⟨hfit, hfresh⟩
  · exact absurd h0 hp
  refine ⟨hinv.item8, by simp, ?_, ?_, ?_, hinv.chain, hinv.nodup, ?_, ?_⟩
  · intro b hb
    rcases List.mem_append.mp hb with hb | hb
    · exact hinv.uninit_le b hb
    · simp only [List.mem_singleton] at hb
      subst hb; exact le_refl _
  · intro p hpm
    simp only [List.map_append, List.map_cons, List.map_nil, List.mem_append,
      List.mem_singleton] at hpm
    rcases hpm with hpm | rfl
    · exact hinv.mem_ok p hpm
    · exact ⟨hp, hfit⟩
  · simp only [List.map_append, List.map_cons, List.map_nil]
    rw [List.pairwise_append]
    refine ⟨hinv.disj, List.pairwise_singleton _ _, ?_⟩
    intro p hpm q hq
    simp only [List.mem_singleton] at hq
    subst hq
    obtain ⟨b, hb, rfl⟩ := List.mem_map.mp hpm
    exact (hfresh b hb).2.symm
  · intro x hx
    exact (handed_append_fresh _ _ _ _ x).mpr (hinv.free_handed x hx)
  · intro x
    rw [hinv.live_iff x]
    unfold HandedOut
    simp only
    rw [handed_append_fresh]

/-- The slots a block serves were not handed out before. -/
theorem served_fresh (m : MemoryManager) (live : Nat → Bool) (fl : List Nat)
    (hinv : Inv m live fl) (pre post : List Block) (b : Block)
    (hbl : m.blocks = pre ++ b :: post) (j : Nat)
    (hj : j < b.unitializedItems) :
    ¬ HandedOut m (b.memory + (m.itemsPerBlock - b.unitializedItems + j) * m.itemSize) := by
  rintro ⟨c, hc, i, hi, hx⟩
  have hbm : b ∈ m.blocks := by rw [hbl]; simp
  have hbu := hinv.uninit_le b hbm
  have hS : 0 < m.itemSize := by have := hinv.item8; unfold PTR_SIZE at this; omega
  have hidx : m.itemsPerBlock - b.unitializedItems + j < m.itemsPerBlock := by omega
  have hinj := slot_inj m.itemSize m.itemsPerBlock hS _ hinv.disj b.memory c.memory
    (m.itemsPerBlock - b.unitializedItems + j) i
    (List.mem_map_of_mem _ hbm) (List.mem_map_of_mem _ hc) hidx (by omega) hx
  have hsize : 0 < m.itemSize * m.itemsPerBlock := Nat.mul_pos hS (by omega)
  have hbc := block_of_memory _ hsize m.blocks hinv.disj b c hbm hc hinj.1
  subst hbc
  omega

theorem inv_served (m : MemoryManager) (live : Nat → Bool) (fl : List Nat)
    (hinv : Inv m live fl) (k : Nat) (blocks1 : List Block) (ret idx mem : Nat)
    (hs : Served m.itemSize m.itemsPerBlock k m.blocks blocks1 ret idx mem) :
    Inv { m with blocks := blocks1 } (fun x => inRun ret m.itemSize k x || live x) fl := by
  obtain ⟨pre, b, post, hbl, hk, hbl1, hidx, hmem, hret⟩ := hs
  have hbm : b ∈ m.blocks := by rw [hbl]; simp
  have hbu := hinv.uninit_le b hbm
  have hS : 0 < m.itemSize := by have := hinv.item8; unfold PTR_SIZE at this; omega
  have hmems : blocks1.map Block.memory = m.blocks.map Block.memory := by
    rw [hbl1, hbl]; simp
  have hhand : ∀ x, Handed m.itemSize m.itemsPerBlock blocks1 x ↔
      HandedOut m x ∨ ∃ j, j < k ∧
        x = b.memory + (m.itemsPerBlock - b.unitializedItems + j) * m.itemSize := by
    intro x
    rw [hbl1, handed_served _ _ _ _ _ _ hk hbu]
    unfold HandedOut
    rw [hbl]
  have hrun : ∀ x, inRun ret m.itemSize k x = true ↔ ∃ j, j < k ∧
        x = b.memory + (m.itemsPerBlock - b.unitializedItems + j) * m.itemSize := by
    intro x
    rw [inRun_iff _ _ _ _ hS]
    by_cases hk0 : k = 0
    · subst hk0; simp
    · have hi : idx < m.itemsPerBlock := by omega
      have e := itemAtIndex_eq b m.itemSize m.itemsPerBlock idx hi
        (hinv.mem_ok _ (List.mem_map_of_mem _ hbm)).2 hS
      rw [hret, e, hidx]
      constructor
      · rintro ⟨j, hj, rfl⟩; exact ⟨j, hj, by ring⟩
      · rintro ⟨j, hj, rfl⟩; exact ⟨j, hj, by ring⟩
  refine ⟨hinv.item8, ?_, ?_, ?_, ?_, hinv.chain, hinv.nodup, ?_, ?_⟩
  · simp only [hbl1]; simp
  · intro c hc
    simp only [hbl1] at hc
    rcases List.mem_append.mp hc with hc | hc
    · exact hinv.uninit_le c (by rw [hbl]; exact List.mem_append_left _ hc)
    · rcases List.mem_cons.mp hc with rfl | hc
      · simp only; omega
      · exact hinv.uninit_le c (by rw [hbl]; simp [hc])
  · simp only [hmems]; exact hinv.mem_ok
  · simp only [hmems]; exact hinv.disj
  · intro x hx
    exact (hhand x).mpr (Or.inl (hinv.free_handed x hx))
  · intro x
    unfold HandedOut
    simp only [Bool.or_eq_true]
    rw [hhand x, hrun x, hinv.live_iff x]
    constructor
    · rintro (⟨j, hj, rfl⟩ | ⟨h1, h2⟩)
      · refine ⟨Or.inr ⟨j, hj, rfl⟩, ?_⟩
        intro hfl
        exact served_fresh m live fl hinv pre post b hbl j (by omega)
          (hinv.free_handed _ hfl)
      · exact ⟨Or.inl h1, h2⟩
    · rintro ⟨h1 | h1, h2⟩
      · exact Or.inr ⟨h1, h2⟩
      · exact Or.inl h1

/-! ## The invariant is kept by the free list -/

theorem handedOut_bounds (m : MemoryManager) (live : Nat → Bool) (fl : List Nat)
    (hinv : Inv m live fl) (x : Nat) (hx : HandedOut m x) :
    x ≠ 0 ∧ x + m.itemSize ≤ WORD := by
  obtain ⟨b, hb, i, hi, rfl⟩ := hx
  obtain ⟨h0, hfit⟩ := hinv.mem_ok _ (List.mem_map_of_mem _ hb)
  have h1 : (i + 1) * m.itemSize ≤ m.itemsPerBlock * m.itemSize :=
    Nat.mul_le_mul_right _ (by omega)
  have e : (i + 1) * m.itemSize = i * m.itemSize + m.itemSize := by ring
  rw [Nat.mul_comm m.itemSize m.itemsPerBlock] at hfit
  constructor <;> omega

theorem handedOut_apart (m : MemoryManager) (live : Nat → Bool) (fl : List Nat)
    (hinv : Inv m live fl) (x y : Nat) (hx : HandedOut m x) (hy : HandedOut m y)
    (hne : x ≠ y) : x + m.itemSize ≤ y ∨ y + m.itemSize ≤ x := by
  obtain ⟨b, hb, i, hi, rfl⟩ := hx
  obtain ⟨c, hc, j, hj, rfl⟩ := hy
  exact slot_apart m.itemSize m.itemsPerBlock _ hinv.disj b.memory c.memory i j
    (List.mem_map_of_mem _ hb) (List.mem_map_of_mem _ hc) (by omega) (by omega) hne

theorem freeChain_congr (h1 h2 : Heap) (fl : List Nat) :
    ∀ hd, (∀ y ∈ fl, storedPtr h2 y = storedPtr h1 y) → FreeChain h1 hd fl →
      FreeChain h2 hd fl := by
  induction fl with
  | nil => intro hd _ h; exact h
  | cons x xs ih =>
    intro hd hsame h
    obtain ⟨e, hx0, hrest⟩ := h
    refine ⟨e, hx0, ?_⟩
    rw [hsame x (List.mem_cons_self _ _)]
    exact ih _ (fun y hy => hsame y (List.mem_cons_of_mem _ hy)) hrest

theorem inv_head_lt (m : MemoryManager) (live : Nat → Bool) (fl : List Nat)
    (hinv : Inv m live fl) : m.head < WORD := by
  have hc := hinv.chain
  cases fl with
  | nil =>
    have : m.head = 0 := hc
    rw [this]; decide
  | cons x xs =>
    obtain ⟨e, _, _⟩ := hc
    have hb := handedOut_bounds m live _ hinv x (hinv.free_handed x (List.mem_cons_self _ _))
    have h8 := hinv.item8
    unfold PTR_SIZE at h8
    omega

theorem inv_pop (m : MemoryManager) (live : Nat → Bool) (fl : List Nat)
    (hinv : Inv m live fl) (hh : m.head ≠ 0) :
    ∃ rest, fl = m.head :: rest ∧
      Inv { m with head := storedPtr m.heap m.head } (fun x => x == m.head || live x) rest := by
  have hc := hinv.chain
  cases fl with
  | nil => exact absurd hc hh
  | cons x xs =>
    obtain ⟨e, hx0, hrest⟩ := hc
    refine ⟨xs, by rw [e], ?_⟩
    have hnd := List.nodup_cons.mp hinv.nodup
    refine ⟨hinv.item8, hinv.blocks_ne, hinv.uninit_le, hinv.mem_ok, hinv.disj, ?_, hnd.2,
      ?_, ?_⟩
    · rw [e]; exact hrest
    · intro y hy
      have := hinv.free_handed y (List.mem_cons_of_mem _ hy)
      unfold HandedOut at this ⊢
      exact this
    · intro y
      simp only [Bool.or_eq_true, beq_iff_eq]
      rw [hinv.live_iff y, e]
      have hxh : HandedOut m x := hinv.free_handed _ (List.mem_cons_self _ _)
      unfold HandedOut at hxh ⊢
      simp only
      constructor
      · intro h
        rcases h with h | ⟨h1, h2⟩
        · rw [h]
          exact ⟨hxh, hnd.1⟩
        · exact ⟨h1, fun h => h2 (List.mem_cons_of_mem _ h)⟩
      · rintro ⟨h1, h2⟩
        by_cases hyx : y = x
        · exact Or.inl hyx
        · exact Or.inr ⟨h1, by simp [hyx, h2]⟩

theorem inv_delete (m : MemoryManager) (live : Nat → Bool) (fl : List Nat)
    (hinv : Inv m live fl) (x : Nat) (hx : live x = true) :
    Inv (m.deleteItem x) (fun y => y != x && live y) (x :: fl) := by
  obtain ⟨hxh, hxfl⟩ := (hinv.live_iff x).mp hx
  have hxb := handedOut_bounds m live fl hinv x hxh
  have h8 := hinv.item8
  refine ⟨hinv.item8, hinv.blocks_ne, hinv.uninit_le, hinv.mem_ok, hinv.disj, ?_,
    List.nodup_cons.mpr ⟨hxfl, hinv.nodup⟩, ?_, ?_⟩
  · refine ⟨rfl, hxb.1, ?_⟩
    unfold MemoryManager.deleteItem
    simp only
    rw [storedPtr_set_same _ _ _ (inv_head_lt m live fl hinv)]
    refine freeChain_congr m.heap _ fl _ ?_ hinv.chain
    intro y hy
    apply storedPtr_set_other
    have hne : x ≠ y := by rintro rfl; exact hxfl hy
    rcases handedOut_apart m live fl hinv x y hxh (hinv.free_handed y hy) hne with h | h
    · left; omega
    · right; omega
  · intro y hy
    rcases List.mem_cons.mp hy with rfl | hy
    · exact hxh
    · exact hinv.free_handed y hy
  · intro y
    simp only [Bool.and_eq_true, bne_iff_ne, ne_eq]
    rw [hinv.live_iff y]
    unfold MemoryManager.deleteItem HandedOut
    simp only [List.mem_cons, not_or]
    constructor
    · rintro ⟨h1, h2, h3⟩; exact ⟨h2, h1, h3⟩
    · rintro ⟨h2, h1, h3⟩; exact ⟨h1, h2, h3⟩

theorem inv_write (m : MemoryManager) (live : Nat → Bool) (fl : List Nat)
    (hinv : Inv m live fl) (slot offset : Nat) (byte : Fin 256)
    (hx : live slot = true) (hoff : offset < m.itemSize) :
    Inv { m with heap := setByte m.heap (slot + offset) byte } live fl := by
  obtain ⟨hxh, hxfl⟩ := (hinv.live_iff slot).mp hx
  have h8 := hinv.item8
  refine ⟨hinv.item8, hinv.blocks_ne, hinv.uninit_le, hinv.mem_ok, hinv.disj, ?_,
    hinv.nodup, hinv.free_handed, hinv.live_iff⟩
  refine freeChain_congr m.heap _ fl _ ?_ hinv.chain
  intro y hy
  apply storedPtr_setByte_other
  have hne : slot ≠ y := by rintro rfl; exact hxfl hy
  unfold PTR_SIZE at *
  rcases handedOut_apart m live fl hinv slot y hxh (hinv.free_handed y hy) hne with h | h
  · left; omega
  · right; omega

theorem inv_allocStep (m : MemoryManager) (live : Nat → Bool) (fl : List Nat)
    (hinv : Inv m live fl) (hno : NoOverflow m) (k : Nat) (malloc : Nat → Nat)
    (hmal : MallocOk m malloc) (ret : Nat) (m1 : MemoryManager)
    (h : AllocStep m k malloc (.ok ret) m1) :
    Inv m1 (fun x => inRun ret m.itemSize k x || live x) fl := by
  rcases h with ⟨h, _⟩ | ⟨e, h, _⟩ | ⟨ret1, idx, mem, blocks0, blocks1, hr, hb0, hs, rfl⟩
  · cases h
  · cases h
  · cases hr
    rcases hb0 with rfl | ⟨hp, rfl⟩
    · exact inv_served m live fl hinv k blocks1 ret idx mem hs
    · exact inv_served _ live fl (inv_addBlock m live fl malloc hinv hno hmal hp) k blocks1
        ret idx mem hs

theorem inv_construct (S ipb : Nat) (malloc : Nat → Nat) (heap : Heap) (m : MemoryManager)
    (hmal : MallocOk (MemoryManager.members S ipb heap) malloc)
    (hc : newManager S ipb malloc heap = .ok m) (hno : NoOverflow m) :
    Inv m (fun _ => false) [] := by
  unfold newManager MemoryManager.construct at hc
  by_cases h8 : S < PTR_SIZE
  · simp [h8] at hc
  · simp only [h8, if_false] at hc
    rw [addBlock_eq] at hc
    by_cases hp : malloc (MemoryManager.members S ipb heap).request = 0
    · simp [hp] at hc
    · simp only [hp, if_false, Except.ok.injEq] at hc
      subst hc
      unfold NoOverflow at hno
      simp only [MemoryManager.members] at hno
      unfold MallocOk at hmal
      simp only [MemoryManager.request, MemoryManager.members] at hp hmal ⊢
      simp only [List.not_mem_nil, false_imp_iff, implies_true, and_true] at hmal
      rcases hmal with h0 | hfit
      · exact absurd h0 hp
      rw [Nat.mod_eq_of_lt hno] at hfit hp
      refine ⟨by simpa using h8, by simp, ?_, ?_, ?_, rfl, List.nodup_nil, ?_, ?_⟩
      · intro b hb
        simp only [List.nil_append, List.mem_singleton] at hb
        subst hb; exact le_refl _
      · intro p hpm
        simp only [List.nil_append, List.map_cons, List.map_nil,
          List.mem_singleton] at hpm
        subst hpm
        rw [Nat.mod_eq_of_lt hno]
        exact ⟨hp, hfit⟩
      · simp
      · intro x hx; cases hx
      · intro x
        simp only [Bool.false_eq_true, List.not_mem_nil, not_false_eq_true, and_true,
          false_iff]
        rintro ⟨b, hb, i, hi, _⟩
        simp only [List.nil_append, List.mem_singleton] at hb
        subst hb
        simp at hi

/-! ## The invariant holds in every reachable state -/

theorem inRun_one (a S x : Nat) (hS : 0 < S) : inRun a S 1 x = (x == a) := by
  rw [Bool.eq_iff_iff, inRun_iff a S 1 x hS]
  simp only [beq_iff_eq]
  constructor
  · rintro ⟨j, hj, rfl⟩
    have : j = 0 := by omega
    subst this; simp
  · rintro rfl
    exact ⟨0, by omega, by simp⟩

theorem obtainFromNewBlock_params (m : MemoryManager) (k : Nat) (malloc : Nat → Nat) :
    (m.obtainFromNewBlock k malloc).2.itemSize = m.itemSize ∧
    (m.obtainFromNewBlock k malloc).2.itemsPerBlock = m.itemsPerBlock := by
  unfold MemoryManager.obtainFromNewBlock
  rw [addBlock_eq]
  by_cases hp : malloc m.request = 0
  · simp [hp]
  · simp only [hp, if_false]
    split <;> simp

theorem newItem_params (m : MemoryManager) (malloc : Nat → Nat) :
    (m.newItem malloc).2.itemSize = m.itemSize ∧
    (m.newItem malloc).2.itemsPerBlock = m.itemsPerBlock := by
  unfold MemoryManager.newItem
  split
  · simp
  · split
    · simp
    · split
      · split <;> simp
      · exact obtainFromNewBlock_params m 1 malloc

theorem newItems_params (m : MemoryManager) (k : Nat) (malloc : Nat → Nat) :
    (m.newItems k malloc).2.itemSize = m.itemSize ∧
    (m.newItems k malloc).2.itemsPerBlock = m.itemsPerBlock := by
  unfold MemoryManager.newItems
  split
  · simp
  · split
    · simp
    · exact obtainFromNewBlock_params m k malloc

theorem step_params (s : Sys) (op : Op) :
    (step s op).2.mgr.itemSize = s.mgr.itemSize ∧
    (step s op).2.mgr.itemsPerBlock = s.mgr.itemsPerBlock := by
  cases op with
  | newItem malloc =>
    have h := newItem_params s.mgr malloc
    simp only [step]
    split
    · rename_i e m heq; rw [heq] at h; exact h
    · rename_i a m heq; rw [heq] at h; exact h
  | newItems count malloc =>
    have h := newItems_params s.mgr count malloc
    simp only [step]
    split
    · rename_i e m heq; rw [heq] at h; exact h
    · rename_i a m heq; rw [heq] at h; exact h
  | deleteItem item => exact ⟨rfl, rfl⟩
  | write slot offset byte => exact ⟨rfl, rfl⟩

theorem step_noOverflow (s : Sys) (op : Op) (r : Except Failure (Option Nat)) (s1 : Sys)
    (h : step s op = (r, s1)) : NoOverflow s1.mgr ↔ NoOverflow s.mgr := by
  have hp := step_params s op
  rw [h] at hp
  unfold NoOverflow
  rw [hp.1, hp.2]

/-- One valid call keeps the invariant, and "out of memory" leaves the state as it was. -/
theorem inv_step (s : Sys) (op : Op) (fl : List Nat) (hinv : Inv s.mgr s.live fl)
    (hno : NoOverflow s.mgr) (hv : ValidOp s op) :
    (∀ r s1, step s op = (.ok r, s1) → ∃ fl1, Inv s1.mgr s1.live fl1) ∧
    (∀ s1, step s op = (.error .outOfMemory, s1) → s1 = s) := by
  have hipb := noOverflow_ipb s.mgr hinv.item8 hno
  cases op with
  | newItem malloc =>
    have hmal : MallocOk s.mgr malloc := hv
    constructor
    · intro r s1 h
      simp only [step] at h
      cases hn : s.mgr.newItem malloc with
      | mk res m1 =>
        rw [hn] at h
        cases res with
        | error e => simp at h
        | ok a =>
          simp only [Prod.mk.injEq] at h
          obtain ⟨_, rfl⟩ := h
          rcases newItem_spec s.mgr malloc hipb hinv.uninit_le _ _ hn with
            ⟨hh, hr, rfl⟩ | ⟨hh, hstep⟩
          · cases hr
            obtain ⟨rest, _, hinv1⟩ := inv_pop s.mgr s.live fl hinv hh
            exact ⟨rest, hinv1⟩
          · refine ⟨fl, ?_⟩
            have := inv_allocStep s.mgr s.live fl hinv hno 1 malloc hmal a m1 hstep
            have hS : 0 < s.mgr.itemSize := by
              have := hinv.item8; unfold PTR_SIZE at this; omega
            have e : (fun x => x == a || s.live x) =
                (fun x => inRun a s.mgr.itemSize 1 x || s.live x) := by
              funext x; rw [inRun_one a s.mgr.itemSize x hS]
            show Inv m1 (fun x => x == a || s.live x) fl
            rw [e]; exact this
    · intro s1 h
      simp only [step] at h
      cases hn : s.mgr.newItem malloc with
      | mk res m1 =>
        rw [hn] at h
        cases res with
        | ok a => simp at h
        | error e =>
          simp only [Prod.mk.injEq] at h
          obtain ⟨he, rfl⟩ := h
          cases he
          rcases newItem_spec s.mgr malloc hipb hinv.uninit_le _ _ hn with
            ⟨hh, hr, _⟩ | ⟨hh, hstep⟩
          · cases hr
          · rcases hstep with ⟨_, rfl, _⟩ | ⟨e, h1, h2⟩ | ⟨_, _, _, _, _, hr, _⟩
            · rfl
            · cases h1; exact absurd rfl h2
            · cases hr
  | newItems count malloc =>
    obtain ⟨hcount, hmal⟩ : count ≤ s.mgr.itemsPerBlock ∧ MallocOk s.mgr malloc := hv
    constructor
    · intro r s1 h
      simp only [step] at h
      cases hn : s.mgr.newItems count malloc with
      | mk res m1 =>
        rw [hn] at h
        cases res with
        | error e => simp at h
        | ok a =>
          simp only [Prod.mk.injEq] at h
          obtain ⟨_, rfl⟩ := h
          have hstep := newItems_spec s.mgr count malloc hipb hinv.uninit_le _ _ hn
          exact ⟨fl, inv_allocStep s.mgr s.live fl hinv hno count malloc hmal a m1 hstep⟩
    · intro s1 h
      simp only [step] at h
      cases hn : s.mgr.newItems count malloc with
      | mk res m1 =>
        rw [hn] at h
        cases res with
        | ok a => simp at h
        | error e =>
          simp only [Prod.mk.injEq] at h
          obtain ⟨he, rfl⟩ := h
          cases he
          have hstep := newItems_spec s.mgr count malloc hipb hinv.uninit_le _ _ hn
          rcases hstep with ⟨_, rfl, _⟩ | ⟨e, h1, h2⟩ | ⟨_, _, _, _, _, hr, _⟩
          · rfl
          · cases h1; exact absurd rfl h2
          · cases hr
  | deleteItem item =>
    have hlive : s.live item = true := hv
    constructor
    · intro r s1 h
      simp only [step] at h
      simp only [Prod.mk.injEq] at h
      obtain ⟨_, rfl⟩ := h
      exact ⟨item :: fl, inv_delete s.mgr s.live fl hinv item hlive⟩
    · intro s1 h
      simp only [step] at h
      simp at h
  | write slot offset byte =>
    obtain ⟨hlive, hoff⟩ : s.live slot = true ∧ offset < s.mgr.itemSize := hv
    constructor
    · intro r s1 h
      simp only [step] at h
      simp only [Prod.mk.injEq] at h
      obtain ⟨_, rfl⟩ := h
      exact ⟨fl, inv_write s.mgr s.live fl hinv slot offset byte hlive hoff⟩
    · intro s1 h
      simp only [step] at h
      simp at h

theorem reachable_inv (allowed : Op → Prop) (s : Sys) (hr : ReachableBy allowed s) :
    NoOverflow s.mgr → ∃ fl, Inv s.mgr s.live fl := by
  induction hr with
  | init S ipb malloc heap m _ _ hmal hc =>
    intro hno
    exact ⟨[], inv_construct S ipb malloc heap m hmal hc hno⟩
  | step s op r s1 _ _ hv hstep ih =>
    intro hno
    have hno0 := (step_noOverflow s op _ s1 hstep).mp hno
    obtain ⟨fl, hinv⟩ := ih hno0
    exact (inv_step s op fl hinv hno0 hv).1 r s1 hstep
  | fail s op s1 _ _ hv hstep ih =>
    intro hno
    have hno0 := (step_noOverflow s op _ s1 hstep).mp hno
    obtain ⟨fl, hinv⟩ := ih hno0
    have := (inv_step s op fl hinv hno0 hv).2 s1 hstep
    subst this
    exact ⟨fl, hinv⟩

/-! ## The enumeration of live items -/

theorem addItemsLoop_spec (S : Nat) (b : Block) (n : Nat) (hn : n < UINT) :
    ∀ fuel i out, i ≤ n → n - i ≤ fuel →
      ∃ out1, addItemsLoop S b n fuel i out = some out1 ∧
        (∀ x, x ∈ out1 ↔ x ∈ out ∨ ∃ j, i ≤ j ∧ j < n ∧ x = b.itemAtIndex S j) ∧
        (out.Nodup → out1.Nodup) := by
  intro fuel
  induction fuel with
  | zero =>
    intro i out hi hf
    have hin : ¬ i < n := by omega
    refine ⟨out, by simp [addItemsLoop, hin], ?_, id⟩
    intro x
    constructor
    · intro h; exact Or.inl h
    · rintro (h | ⟨j, h1, h2, _⟩)
      · exact h
      · omega
  | succ fuel ih =>
    intro i out hi hf
    by_cases hin : i < n
    · have hmod : (i + 1) % UINT = i + 1 := Nat.mod_eq_of_lt (by omega)
      obtain ⟨out1, h1, h2, h3⟩ :=
        ih (i + 1) (out.insert (b.itemAtIndex S i)) (by omega) (by omega)
      refine ⟨out1, by simp [addItemsLoop, hin, hmod, h1], ?_, ?_⟩
      · intro x
        rw [h2 x, List.mem_insert_iff]
        constructor
        · rintro ((rfl | h) | ⟨j, h4, h5, h6⟩)
          · exact Or.inr ⟨i, le_refl _, hin, rfl⟩
          · exact Or.inl h
          · exact Or.inr ⟨j, by omega, h5, h6⟩
        · rintro (h | ⟨j, h4, h5, h6⟩)
          · exact Or.inl (Or.inr h)
          · by_cases hji : j = i
            · subst hji; exact Or.inl (Or.inl h6)
            · exact Or.inr ⟨j, by omega, h5, h6⟩
      · intro hnd
        exact h3 (List.Nodup.insert hnd)
    · refine ⟨out, by simp [addItemsLoop, hin], ?_, id⟩
      intro x
      constructor
      · intro h; exact Or.inl h
      · rintro (h | ⟨j, h1, h2, _⟩)
        · exact h
        · omega

theorem addItemsFromBlocks_spec (S ipb fuel : Nat) (hipb : ipb < UINT) (hf : ipb ≤ fuel) :
    ∀ blocks out, (∀ b ∈ blocks, b.unitializedItems ≤ ipb) →
      ∃ out1, addItemsFromBlocks S ipb fuel blocks out = some out1 ∧
        (∀ x, x ∈ out1 ↔ x ∈ out ∨
          ∃ b ∈ blocks, ∃ j, j < ipb - b.unitializedItems ∧ x = b.itemAtIndex S j) ∧
        (out.Nodup → out1.Nodup) := by
  intro blocks
  induction blocks with
  | nil =>
    intro out _
    exact ⟨out, rfl, by simp, id⟩
  | cons b rest ih =>
    intro out hun
    have hb := hun b (List.mem_cons_self _ _)
    have hw : ipb < WORD := lt_trans hipb (by decide)
    have hsub : subw ipb b.unitializedItems = ipb - b.unitializedItems := subw_eq _ _ hb hw
    obtain ⟨out1, h1, h2, h3⟩ := addItemsLoop_spec S b (ipb - b.unitializedItems)
      (by omega) fuel 0 out (Nat.zero_le _) (by omega)
    obtain ⟨out2, h4, h5, h6⟩ := ih out1 (fun c hc => hun c (List.mem_cons_of_mem _ hc))
    refine ⟨out2, ?_, ?_, fun h => h6 (h3 h)⟩
    · simp only [addItemsFromBlocks, addItemsFromBlock, hsub, h1, h4]
    · intro x
      rw [h5 x, h2 x]
      constructor
      · rintro ((h | ⟨j, _, hj, hx⟩) | ⟨c, hc, j, hj, hx⟩)
        · exact Or.inl h
        · exact Or.inr ⟨b, List.mem_cons_self _ _, j, hj, hx⟩
        · exact Or.inr ⟨c, List.mem_cons_of_mem _ hc, j, hj, hx⟩
      · rintro (h | ⟨c, hc, j, hj, hx⟩)
        · exact Or.inl (Or.inl h)
        · rcases List.mem_cons.mp hc with rfl | hc
          · exact Or.inl (Or.inr ⟨j, Nat.zero_le _, hj, hx⟩)
          · exact Or.inr ⟨c, hc, j, hj, hx⟩

theorem eraseFreed_spec (heap : Heap) :
    ∀ (fl : List Nat) (fuel hd : Nat) (ret : List Nat), FreeChain heap hd fl →
      fl.length ≤ fuel → ret.Nodup →
      ∃ ret1, eraseFreed heap fuel hd ret = some ret1 ∧
        (∀ x, x ∈ ret1 ↔ x ∈ ret ∧ x ∉ fl) := by
  intro fl
  induction fl with
  | nil =>
    intro fuel hd ret hc _ _
    have h0 : hd = 0 := hc
    subst h0
    refine ⟨ret, ?_, by simp⟩
    cases fuel <;> simp [eraseFreed]
  | cons y ys ih =>
    intro fuel hd ret hc hf hnd
    obtain ⟨rfl, hy0, hrest⟩ := hc
    cases fuel with
    | zero => simp at hf
    | succ fuel =>
      obtain ⟨ret1, h1, h2⟩ := ih fuel (storedPtr heap hd) (ret.erase hd) hrest
        (by simpa using hf) (List.Nodup.erase _ hnd)
      refine ⟨ret1, by simp [eraseFreed, hy0, h1], ?_⟩
      intro x
      rw [h2 x, List.Nodup.mem_erase_iff hnd]
      simp only [List.mem_cons, not_or]
      tauto

/-- On a state that satisfies the invariant, with fewer than `2^32` items per block,
`allocatedItems` returns, and returns exactly the live addresses. -/
theorem allocatedItems_of_inv (m : MemoryManager) (live : Nat → Bool) (fl : List Nat)
    (hinv : Inv m live fl) (hipb : m.itemsPerBlock < UINT) (fuel : Nat)
    (hf1 : m.itemsPerBlock ≤ fuel) (hf2 : fl.length ≤ fuel) :
    ∃ ret, m.allocatedItems fuel = some ret ∧ ∀ x, x ∈ ret ↔ live x = true := by
  obtain ⟨out1, h1, h2, h3⟩ := addItemsFromBlocks_spec m.itemSize m.itemsPerBlock fuel hipb hf1
    m.blocks [] hinv.uninit_le
  obtain ⟨ret, h4, h5⟩ := eraseFreed_spec m.heap fl fuel m.head out1 hinv.chain hf2
    (h3 List.nodup_nil)
  refine ⟨ret, by simp [MemoryManager.allocatedItems, h1, h4], ?_⟩
  intro x
  have hS : 0 < m.itemSize := by have := hinv.item8; unfold PTR_SIZE at this; omega
  rw [h5 x, h2 x, hinv.live_iff x]
  simp only [List.not_mem_nil, false_or]
  have : (∃ b ∈ m.blocks, ∃ j, j < m.itemsPerBlock - b.unitializedItems ∧
      x = b.itemAtIndex m.itemSize j) ↔ HandedOut m x := by
    constructor
    · rintro ⟨b, hb, j, hj, hx⟩
      refine ⟨b, hb, j, hj, ?_⟩
      rw [hx]
      exact itemAtIndex_eq b m.itemSize m.itemsPerBlock j (by omega)
        (hinv.mem_ok _ (List.mem_map_of_mem _ hb)).2 hS
    · rintro ⟨b, hb, j, hj, hx⟩
      refine ⟨b, hb, j, hj, ?_⟩
      rw [hx]
      exact (itemAtIndex_eq b m.itemSize m.itemsPerBlock j (by omega)
        (hinv.mem_ok _ (List.mem_map_of_mem _ hb)).2 hS).symm
  rw [this]

/-! ## Checked runs -/

theorem runOps_cons_ok (s : Sys) (op : Op) (ops : List Op) (r : Option Nat) (s1 : Sys)
    (h : step s op = (.ok r, s1)) :
    runOps s (op :: ops) = (r :: (runOps s1 ops).1, (runOps s1 ops).2) := by
  simp [runOps, h]

theorem reachable_run (allowed : Op → Prop) :
    ∀ (ops : List Op) (s : Sys), ReachableBy allowed s → (∀ op ∈ ops, allowed op) →
      validRun s ops = true → ReachableBy allowed (runOps s ops).2 := by
  intro ops
  induction ops with
  | nil => intro s hr _ _; exact hr
  | cons op ops ih =>
    intro s hr hall hv
    simp only [validRun, Bool.and_eq_true, decide_eq_true_eq] at hv
    obtain ⟨hvalid, hrest⟩ := hv
    cases hstep : step s op with
    | mk res s1 =>
      rw [hstep] at hrest
      cases res with
      | error e => simp at hrest
      | ok r =>
        simp only at hrest
        rw [runOps_cons_ok s op ops r s1 hstep]
        exact ih s1 (ReachableBy.step s op r s1 hr (hall op (List.mem_cons_self _ _)) hvalid
          hstep) (fun o ho => hall o (List.mem_cons_of_mem _ ho)) hrest

theorem reachable_startAt (allowed : Op → Prop) (S ipb p : Nat) (hS : S < WORD)
    (hipb : ipb < WORD) (h8 : PTR_SIZE ≤ S) (hp : p ≠ 0) (hfit : p + S * ipb % WORD ≤ WORD) :
    ReachableBy allowed (startAt S ipb p) := by
  have hc : newManager S ipb (mallocAt p) zeroHeap =
      .ok { MemoryManager.members S ipb zeroHeap with
            blocks := [{ unitializedItems := ipb, memory := p }] } := by
    unfold newManager MemoryManager.construct
    rw [if_neg (by omega), addBlock_eq]
    simp [mallocAt, hp, MemoryManager.members]
  unfold startAt
  rw [hc]
  refine ReachableBy.init S ipb (mallocAt p) zeroHeap _ hS hipb ?_ hc
  right
  simp [MemoryManager.members, mallocAt, hfit]

/-! ## Fresh addresses -/

theorem step_newItem_ok (s : Sys) (malloc : Nat → Nat) (a : Nat) (s1 : Sys)
    (h : step s (.newItem malloc) = (.ok (some a), s1)) :
    ∃ m1, s.mgr.newItem malloc = (.ok a, m1) ∧ s1.mgr = m1 ∧
      s1.live = (fun x => x == a || s.live x) ∧
      s1.returned = (fun x => x == a || s.returned x) := by
  simp only [step] at h
  cases hn : s.mgr.newItem malloc with
  | mk res m1 =>
    rw [hn] at h
    cases res with
    | error e => simp at h
    | ok b =>
      simp only [Prod.mk.injEq, Except.ok.injEq, Option.some.injEq] at h
      obtain ⟨rfl, rfl⟩ := h
      exact ⟨m1, rfl, rfl, rfl, rfl⟩

theorem step_newItems_ok (s : Sys) (k : Nat) (malloc : Nat → Nat) (a : Nat) (s1 : Sys)
    (h : step s (.newItems k malloc) = (.ok (some a), s1)) :
    ∃ m1, s.mgr.newItems k malloc = (.ok a, m1) ∧ s1.mgr = m1 ∧
      s1.live = (fun x => inRun a s.mgr.itemSize k x || s.live x) ∧
      s1.returned = (fun x => x == a || s.returned x) := by
  simp only [step] at h
  cases hn : s.mgr.newItems k malloc with
  | mk res m1 =>
    rw [hn] at h
    cases res with
    | error e => simp at h
    | ok b =>
      simp only [Prod.mk.injEq, Except.ok.injEq, Option.some.injEq] at h
      obtain ⟨rfl, rfl⟩ := h
      exact ⟨m1, rfl, rfl, rfl, rfl⟩

/-- What a block serves: the run lies in that block and was not handed out before. -/
theorem allocStep_facts (m : MemoryManager) (live : Nat → Bool) (fl : List Nat)
    (hinv : Inv m live fl) (hno : NoOverflow m) (k : Nat) (hk : 1 ≤ k) (malloc : Nat → Nat)
    (hmal : MallocOk m malloc) (ret : Nat) (m1 : MemoryManager)
    (h : AllocStep m k malloc (.ok ret) m1) :
    ∃ b ∈ m1.blocks, ∀ j, j < k →
      b.memory ≤ ret + j * m.itemSize ∧
      ret + j * m.itemSize + m.itemSize ≤ b.memory + m.itemSize * m.itemsPerBlock ∧
      ¬ HandedOut m (ret + j * m.itemSize) := by
  rcases h with ⟨h, _⟩ | ⟨e, h, _⟩ | ⟨ret1, idx, mem, blocks0, blocks1, hr, hb0, hs, rfl⟩
  · cases h
  · cases h
  cases hr
  have key : ∀ m0 : MemoryManager, Inv m0 live fl → m0.itemSize = m.itemSize →
      m0.itemsPerBlock = m.itemsPerBlock → m0.blocks = blocks0 →
      (∀ x, HandedOut m x → HandedOut m0 x) →
      ∃ b ∈ blocks1, ∀ j, j < k →
        b.memory ≤ ret + j * m.itemSize ∧
        ret + j * m.itemSize + m.itemSize ≤ b.memory + m.itemSize * m.itemsPerBlock ∧
        ¬ HandedOut m (ret + j * m.itemSize) := by
    intro m0 hinv0 hS0 hI0 hB0 hsub
    obtain ⟨pre, b, post, hbl, hkb, hbl1, hidx, hmem, hret⟩ := hs
    have hbm : b ∈ m0.blocks := by rw [hB0, hbl]; simp
    have hbu := hinv0.uninit_le b hbm
    rw [hI0] at hbu
    have hS : 0 < m.itemSize := by have := hinv.item8; unfold PTR_SIZE at this; omega
    have hfit := (hinv0.mem_ok _ (List.mem_map_of_mem _ hbm)).2
    rw [hS0, hI0] at hfit
    have hi : idx < m.itemsPerBlock := by omega
    have e := itemAtIndex_eq b m.itemSize m.itemsPerBlock idx hi hfit hS
    refine ⟨{ b with unitializedItems := b.unitializedItems - k }, by rw [hbl1]; simp, ?_⟩
    intro j hj
    have hidxj : idx + j + 1 ≤ m.itemsPerBlock := by omega
    have h1 : (idx + j + 1) * m.itemSize ≤ m.itemsPerBlock * m.itemSize :=
      Nat.mul_le_mul_right _ hidxj
    have e2 : (idx + j + 1) * m.itemSize = idx * m.itemSize + j * m.itemSize + m.itemSize := by
      ring
    rw [hret, e]
    refine ⟨by simp only; omega, ?_, ?_⟩
    · simp only
      rw [Nat.mul_comm m.itemSize m.itemsPerBlock]
      omega
    · intro hx
      have hfresh := served_fresh m0 live fl hinv0 pre post b (by rw [hB0, hbl]) j (by omega)
      apply hfresh
      have := hsub _ hx
      rw [hS0, hI0, ← hidx]
      have e3 : b.memory + (idx + j) * m.itemSize = b.memory + idx * m.itemSize + j * m.itemSize := by
        ring
      rw [e3]; exact this
  rcases hb0 with rfl | ⟨hp, rfl⟩
  · exact key m hinv rfl rfl rfl (fun x hx => hx)
  · refine key _ (inv_addBlock m live fl malloc hinv hno hmal hp) rfl rfl rfl ?_
    intro x hx
    exact (handed_append_fresh _ _ _ _ x).mpr hx

/-- An address returned by a valid allocate call (other than `newItems(0)`) was not live. -/
theorem alloc_not_live (s : Sys) (fl : List Nat) (hinv : Inv s.mgr s.live fl)
    (hno : NoOverflow s.mgr) (op : Op) (hpos : PositiveCount op) (hv : ValidOp s op)
    (a : Nat) (s1 : Sys) (h : step s op = (.ok (some a), s1)) : s.live a = false := by
  have hipb := noOverflow_ipb s.mgr hinv.item8 hno
  have hnot : ∀ x, ¬ HandedOut s.mgr x → s.live x = false := by
    intro x hx
    cases hl : s.live x with
    | false => rfl
    | true => exact absurd ((hinv.live_iff x).mp hl).1 hx
  cases op with
  | newItem malloc =>
    obtain ⟨m1, hn, _, _, _⟩ := step_newItem_ok s malloc a s1 h
    rcases newItem_spec s.mgr malloc hipb hinv.uninit_le _ _ hn with ⟨hh, hr, _⟩ | ⟨hh, hstep⟩
    · cases hr
      obtain ⟨rest, hfl, _⟩ := inv_pop s.mgr s.live fl hinv hh
      cases hl : s.live s.mgr.head with
      | false => rfl
      | true =>
        have := ((hinv.live_iff _).mp hl).2
        rw [hfl] at this
        exact absurd (List.mem_cons_self _ _) this
    · obtain ⟨b, _, hb⟩ := allocStep_facts s.mgr s.live fl hinv hno 1 (le_refl _) malloc hv a m1
        hstep
      have := (hb 0 (by omega)).2.2
      simp only [Nat.zero_mul, Nat.add_zero] at this
      exact hnot a this
  | newItems k malloc =>
    obtain ⟨m1, hn, _, _, _⟩ := step_newItems_ok s k malloc a s1 h
    have hstep := newItems_spec s.mgr k malloc hipb hinv.uninit_le _ _ hn
    have hk : 1 ≤ k := hpos
    obtain ⟨b, _, hb⟩ := allocStep_facts s.mgr s.live fl hinv hno k hk malloc hv.2 a m1 hstep
    have := (hb 0 (by omega)).2.2
    simp only [Nat.zero_mul, Nat.add_zero] at this
    exact hnot a this
  | deleteItem item => simp [step] at h
  | write slot offset byte => simp [step] at h

theorem returned_live (s : Sys) (hr : ReachableBy PositiveCount s) :
    NoOverflow s.mgr → ∀ x, s.returned x = true → s.live x = true := by
  induction hr with
  | init S ipb malloc heap m _ _ hmal hc =>
    intro _ x hx
    simp [Sys.initial] at hx
  | step s op r s1 hreach hpos hv hstep ih =>
    intro hno x hx
    have hno0 := (step_noOverflow s op _ s1 hstep).mp hno
    obtain ⟨fl, hinv⟩ := reachable_inv PositiveCount s hreach hno0
    have hS : 0 < s.mgr.itemSize := by have := hinv.item8; unfold PTR_SIZE at this; omega
    have ih := ih hno0
    cases op with
    | newItem malloc =>
      cases r with
      | none => simp only [step] at hstep; split at hstep <;> simp at hstep
      | some a =>
        obtain ⟨m1, _, _, hl, hrt⟩ := step_newItem_ok s malloc a s1 hstep
        rw [hrt] at hx; rw [hl]
        simp only [Bool.or_eq_true, beq_iff_eq] at hx ⊢
        rcases hx with h | h
        · exact Or.inl h
        · exact Or.inr (ih x h)
    | newItems k malloc =>
      cases r with
      | none => simp only [step] at hstep; split at hstep <;> simp at hstep
      | some a =>
        obtain ⟨m1, _, _, hl, hrt⟩ := step_newItems_ok s k malloc a s1 hstep
        rw [hrt] at hx; rw [hl]
        simp only [Bool.or_eq_true, beq_iff_eq] at hx ⊢
        rcases hx with h | h
        · left
          rw [inRun_iff _ _ _ _ hS]
          have hk : 1 ≤ k := hpos
          exact ⟨0, by omega, by simp [h]⟩
        · exact Or.inr (ih x h)
    | deleteItem item =>
      simp only [step, Prod.mk.injEq] at hstep
      obtain ⟨_, rfl⟩ := hstep
      simp only [Bool.and_eq_true, bne_iff_ne, ne_eq] at hx ⊢
      exact ⟨hx.1, ih x hx.2⟩
    | write slot offset byte =>
      simp only [step, Prod.mk.injEq] at hstep
      obtain ⟨_, rfl⟩ := hstep
      exact ih x hx
  | fail s op s1 hreach _ hv hstep ih =>
    intro hno x hx
    have hno0 := (step_noOverflow s op _ s1 hstep).mp hno
    obtain ⟨fl, hinv⟩ := reachable_inv PositiveCount s hreach hno0
    have := (inv_step s op fl hinv hno0 hv).2 s1 hstep
    subst this
    exact ih hno0 x hx

/-! ## Claims C1 and C2 -/

theorem sampleState_reachable (allowed : Op → Prop) (h : ∀ op ∈ sampleOps, allowed op) :
    ReachableBy allowed sampleState :=
  reachable_run allowed sampleOps _
    (reachable_startAt allowed 16 4 4096 (by decide) (by decide) (by decide) (by decide)
      (by decide)) h (by decide)

theorem wrappedState_reachable : Reachable wrappedState :=
  reachable_run _ wrappedOps _
    (reachable_startAt _ (2 ^ 63 + 2) 4 4096 (by decide) (by decide) (by decide) (by decide)
      (by decide)) (fun _ _ => trivial) (by decide)

theorem hugeState_reachable : Reachable hugeState :=
  reachable_run _ _ _
    (reachable_startAt _ 8 (2 ^ 32) (2 ^ 40) (by decide) (by decide) (by decide) (by decide)
      (by decide)) (fun _ _ => trivial) (by decide)

theorem adjacentStart_reachable (allowed : Op → Prop) : ReachableBy allowed adjacentStart :=
  reachable_startAt allowed (2 ^ 33) (2 ^ 31 + 1) (2 ^ 40) (by decide) (by decide) (by decide)
    (by decide) (by decide)

theorem addItemsLoop_none (S : Nat) (b : Block) (n : Nat) (hn : UINT ≤ n) :
    ∀ fuel i out, i < UINT → addItemsLoop S b n fuel i out = none := by
  intro fuel
  induction fuel with
  | zero =>
    intro i out hi
    have : i < n := by omega
    simp [addItemsLoop, this]
  | succ fuel ih =>
    intro i out hi
    have : i < n := by omega
    simp only [addItemsLoop, this, if_true]
    exact ih _ _ (Nat.mod_lt _ (by decide))

theorem hugeState_allocatedItems (fuel : Nat) : hugeState.mgr.allocatedItems fuel = none := by
  have hb : hugeState.mgr.blocks = [{ unitializedItems := 0, memory := 2 ^ 40 }] := by decide
  have hi : hugeState.mgr.itemsPerBlock = 2 ^ 32 := by decide
  unfold MemoryManager.allocatedItems
  rw [hb, hi]
  simp only [addItemsFromBlocks, addItemsFromBlock]
  rw [addItemsLoop_none _ _ _ (by decide) fuel 0 [] (by decide)]

/-- C1 (amended): for a pool with `itemSize * itemsPerBlock < 2^64` and
`itemsPerBlock < 2^32`, in every state reached from `newManager` by valid calls,
`allocatedItems` returns (for every sufficient fuel), and what it returns is exactly the
set of addresses handed out and not yet deallocated. -/
theorem allocatedItems_exact (s : Sys) (hr : Reachable s) (hno : NoOverflow s.mgr)
    (hipb : s.mgr.itemsPerBlock < UINT) :
    ∃ n, ∀ fuel, n ≤ fuel →
      ∃ ret, s.mgr.allocatedItems fuel = some ret ∧ ∀ x, x ∈ ret ↔ s.live x = true := by
  obtain ⟨fl, hinv⟩ := reachable_inv _ s hr hno
  refine ⟨max s.mgr.itemsPerBlock fl.length, ?_⟩
  intro fuel hf
  exact allocatedItems_of_inv s.mgr s.live fl hinv hipb fuel
    (le_trans (le_max_left _ _) hf) (le_trans (le_max_right _ _) hf)

/-- Witness of C1 on `sampleState`. -/
theorem allocatedItems_exact_witness :
    Reachable sampleState ∧ NoOverflow sampleState.mgr ∧
    sampleState.mgr.itemsPerBlock < UINT ∧
    ∃ n, ∀ fuel, n ≤ fuel →
      ∃ ret, sampleState.mgr.allocatedItems fuel = some ret ∧
        ∀ x, x ∈ ret ↔ sampleState.live x = true :=
  ⟨sampleState_reachable _ (fun _ _ => trivial), by decide, by decide,
    allocatedItems_exact sampleState (sampleState_reachable _ (fun _ _ => trivial))
      (by decide) (by decide)⟩

/-- C1 as stated fails.  On the pool `newManager(2^63 + 2, 4)` the product of the sizes wraps
around, slots overlap, and after valid calls `allocatedItems` reports the address 8192 that
has been deallocated.  On the pool `newManager(8, 2^32)`, after `newItems(2^32)`, the
32-bit index of `allocatedItems` never reaches its bound and the call does not return. -/
theorem allocatedItems_not_exact :
    (Reachable wrappedFreed ∧
      wrappedFreed.mgr.allocatedItems 10 =
        some [8192, 9223372036854779910, 9223372036854779906] ∧
      wrappedFreed.live 8192 = false) ∧
    (Reachable hugeState ∧ ∀ fuel, hugeState.mgr.allocatedItems fuel = none) :=
  ⟨⟨reachable_run _ _ _ wrappedState_reachable (fun _ _ => trivial) (by decide),
      by decide, by decide⟩,
    hugeState_reachable, hugeState_allocatedItems⟩

/-- C2 (amended): for a pool with `itemSize * itemsPerBlock < 2^64`, in every state reached
by valid calls none of which is `newItems(0)`, an address returned by a valid allocate call
(`newItem`, or `newItems(count)` with `1 ≤ count ≤ itemsPerBlock`) is not among the addresses
that an earlier allocate call returned and that were not deleted since. -/
theorem allocate_not_returned_twice (s : Sys) (hr : ReachableBy PositiveCount s)
    (hno : NoOverflow s.mgr) (op : Op) (hpos : PositiveCount op) (hv : ValidOp s op)
    (a : Nat) (s1 : Sys) (h : step s op = (.ok (some a), s1)) : s.returned a = false := by
  obtain ⟨fl, hinv⟩ := reachable_inv _ s hr hno
  have hl := alloc_not_live s fl hinv hno op hpos hv a s1 h
  cases hrt : s.returned a with
  | false => rfl
  | true =>
    have := returned_live s hr hno a hrt
    rw [hl] at this
    cases this

/-- Witness of C2: a third `newItem` on a pool with one item deleted. -/
theorem allocate_not_returned_twice_witness :
    ReachableBy PositiveCount sampleState ∧ NoOverflow sampleState.mgr ∧
    PositiveCount (.newItem (mallocAt 0)) ∧ ValidOp sampleState (.newItem (mallocAt 0)) ∧
    step sampleState (.newItem (mallocAt 0)) =
      (.ok (some 4112), (step sampleState (.newItem (mallocAt 0))).2) ∧
    sampleState.returned 4112 = false :=
  ⟨sampleState_reachable _ (by decide), by decide, by decide, by decide, by rfl,
    allocate_not_returned_twice sampleState (sampleState_reachable _ (by decide)) (by decide)
      (.newItem (mallocAt 0)) (by decide) (by decide) 4112 _ (by rfl)⟩

/-- C2 as stated fails.  A second `newItems(0)` returns the address 4096 that the first one
returned, with no `deleteItem` in between.  On the pool `newManager(2^33, 2^31 + 1)` the
product of the sizes wraps around, and `newItems(2^31)` returns the address
`2^40 + 2^33` that the second `newItem` returned. -/
theorem newItems_returns_twice :
    (Reachable emptyRunState ∧ ValidOp emptyRunState (.newItems 0 (mallocAt 0)) ∧
      (step emptyRunState (.newItems 0 (mallocAt 0))).1 = .ok (some 4096) ∧
      emptyRunState.returned 4096 = true) ∧
    (ReachableBy PositiveCount adjacentTwo ∧
      PositiveCount (.newItems (2 ^ 31) (mallocAt (2 ^ 40 + 2 ^ 33))) ∧
      ValidOp adjacentTwo (.newItems (2 ^ 31) (mallocAt (2 ^ 40 + 2 ^ 33))) ∧
      (step adjacentTwo (.newItems (2 ^ 31) (mallocAt (2 ^ 40 + 2 ^ 33)))).1 =
        .ok (some (2 ^ 40 + 2 ^ 33)) ∧
      adjacentTwo.returned (2 ^ 40 + 2 ^ 33) = true) :=
  ⟨⟨reachable_run _ _ _
        (reachable_startAt _ 16 4 4096 (by decide) (by decide) (by decide) (by decide)
          (by decide)) (fun _ _ => trivial) (by decide),
      by decide, by rfl, by decide⟩,
    reachable_run _ _ _ (adjacentStart_reachable _) (by decide) (by decide),
    by decide, by decide, by rfl, by decide⟩

/-! ## Claims C3 and C4 -/

theorem deletes_inv :
    ∀ (xs : List Nat) (s : Sys) (fl : List Nat), Inv s.mgr s.live fl → xs.Nodup →
      (∀ x ∈ xs, s.live x = true) →
      Inv (runOps s (xs.map Op.deleteItem)).2.mgr (runOps s (xs.map Op.deleteItem)).2.live
        (xs.reverse ++ fl) := by
  intro xs
  induction xs with
  | nil => intro s fl hinv _ _; simpa [runOps] using hinv
  | cons x xs ih =>
    intro s fl hinv hnd hlive
    obtain ⟨hx, hnd1⟩ := List.nodup_cons.mp hnd
    let s1 : Sys :=
      { mgr := s.mgr.deleteItem x, live := fun y => y != x && s.live y,
        returned := fun y => y != x && s.returned y }
    have hstep : step s (.deleteItem x) = (.ok none, s1) := rfl
    rw [List.map_cons, runOps_cons_ok s _ _ _ _ hstep]
    have hinv1 : Inv s1.mgr s1.live (x :: fl) :=
      inv_delete s.mgr s.live fl hinv x (hlive x (List.mem_cons_self _ _))
    have hlive1 : ∀ y ∈ xs, s1.live y = true := by
      intro y hy
      have hyx : y ≠ x := by rintro rfl; exact hx hy
      show (y != x && s.live y) = true
      simp [hyx, hlive y (List.mem_cons_of_mem _ hy)]
    have := ih s1 (x :: fl) hinv1 hnd1 hlive1
    simpa using this

theorem step_newItem_eq (s : Sys) (malloc : Nat → Nat) (a : Nat) (m1 : MemoryManager)
    (h : s.mgr.newItem malloc = (.ok a, m1)) :
    step s (.newItem malloc) = (.ok (some a),
      { mgr := m1, live := fun x => x == a || s.live x,
        returned := fun x => x == a || s.returned x }) := by
  simp only [step]
  rw [h]

theorem pops_result :
    ∀ (ys : List Nat) (s : Sys) (fl : List Nat) (mallocs : List (Nat → Nat)),
      Inv s.mgr s.live (ys ++ fl) → mallocs.length = ys.length →
      (runOps s (mallocs.map Op.newItem)).1 = ys.map some := by
  intro ys
  induction ys with
  | nil =>
    intro s fl mallocs _ hlen
    have : mallocs = [] := List.length_eq_zero.mp (by simpa using hlen)
    subst this
    rfl
  | cons y ys ih =>
    intro s fl mallocs hinv hlen
    cases mallocs with
    | nil => simp at hlen
    | cons f fs =>
      have hc := hinv.chain
      obtain ⟨hy, hy0, _⟩ : s.mgr.head = y ∧ y ≠ 0 ∧ _ := hc
      have hh : s.mgr.head ≠ 0 := by rw [hy]; exact hy0
      obtain ⟨rest, hfl, hinv1⟩ := inv_pop s.mgr s.live _ hinv hh
      have hrest : rest = ys ++ fl := by
        simp only [List.cons_append, List.cons.injEq] at hfl
        exact hfl.2.symm
      have hn : s.mgr.newItem f =
          (.ok s.mgr.head, { s.mgr with head := storedPtr s.mgr.heap s.mgr.head }) := by
        unfold MemoryManager.newItem
        rw [if_pos hh]
      let s1 : Sys :=
        { mgr := { s.mgr with head := storedPtr s.mgr.heap s.mgr.head },
          live := fun x => x == s.mgr.head || s.live x,
          returned := fun x => x == s.mgr.head || s.returned x }
      have hstep : step s (.newItem f) = (.ok (some s.mgr.head), s1) :=
        step_newItem_eq s f _ _ hn
      rw [List.map_cons, runOps_cons_ok s _ _ _ _ hstep]
      rw [hrest] at hinv1
      have hinv2 : Inv s1.mgr s1.live (ys ++ fl) := hinv1
      have := ih s1 fl fs hinv2 (by simpa using hlen)
      simp only [List.map_cons, List.cons.injEq]
      exact ⟨by rw [hy], this⟩

/-- C3 (amended): for a pool with `itemSize * itemsPerBlock < 2^64`, in every state reached
by valid calls, if distinct live addresses `xs` are passed to `deleteItem` in order, then
the following calls of `newItem`, as many as there are addresses, return them in the reverse
order. -/
theorem freelist_lifo (s : Sys) (hr : Reachable s) (hno : NoOverflow s.mgr) (xs : List Nat)
    (hnd : xs.Nodup) (hlive : ∀ x ∈ xs, s.live x = true) (mallocs : List (Nat → Nat))
    (hlen : mallocs.length = xs.length) :
    (runOps (runOps s (xs.map Op.deleteItem)).2 (mallocs.map Op.newItem)).1 =
      xs.reverse.map some := by
  obtain ⟨fl, hinv⟩ := reachable_inv _ s hr hno
  have hinv1 := deletes_inv xs s fl hinv hnd hlive
  exact pops_result xs.reverse _ fl mallocs hinv1 (by simpa using hlen)

/-- Witness of C3: two live addresses of `sampleState` are deleted and come back. -/
theorem freelist_lifo_witness :
    Reachable sampleState ∧ NoOverflow sampleState.mgr ∧ [4096, 4128].Nodup ∧
    (∀ x ∈ [4096, 4128], sampleState.live x = true) ∧
    [mallocAt 0, mallocAt 0].length = [4096, 4128].length ∧
    (runOps (runOps sampleState ([4096, 4128].map Op.deleteItem)).2
        ([mallocAt 0, mallocAt 0].map Op.newItem)).1 = [some 4128, some 4096] :=
  ⟨sampleState_reachable _ (fun _ _ => trivial), by decide, by decide, by decide, rfl,
    freelist_lifo sampleState (sampleState_reachable _ (fun _ _ => trivial)) (by decide)
      [4096, 4128] (by decide) (by decide) [mallocAt 0, mallocAt 0] rfl⟩

/-- C3 as stated fails on the pool `newManager(2^63 + 2, 4)`, where the product of the sizes
wraps around and the slots at 4096 and 4100 overlap: after `deleteItem` of the live
addresses 8192, 4096, 4100, the third `newItem` returns 17592186052608 instead of 8192. -/
theorem freelist_lifo_fails_on_overlap :
    Reachable wrappedState ∧ [8192, 4096, 4100].Nodup ∧
    (∀ x ∈ [8192, 4096, 4100], wrappedState.live x = true) ∧
    (runOps (runOps wrappedState ([8192, 4096, 4100].map Op.deleteItem)).2
        ([mallocAt 0, mallocAt 0, mallocAt 0].map Op.newItem)).1 =
      [some 4100, some 4096, some 17592186052608] :=
  ⟨wrappedState_reachable, by decide, by decide, by decide⟩

/-- C4 (amended): for a pool with `itemSize * itemsPerBlock < 2^64` and
`itemsPerBlock < 2^32`, in every state reached by valid calls, a valid `newItems(k)` that
returns `a` hands out the `k` addresses `a + j * itemSize`: they lie in one block of the
manager, are pairwise distinct, were neither handed out nor live before the call, are live
after it, and `allocatedItems` returns them. -/
theorem newItems_run (s : Sys) (hr : Reachable s) (hno : NoOverflow s.mgr)
    (hipb : s.mgr.itemsPerBlock < UINT) (k : Nat) (malloc : Nat → Nat)
    (hv : ValidOp s (.newItems k malloc)) (a : Nat) (s1 : Sys)
    (h : step s (.newItems k malloc) = (.ok (some a), s1)) :
    (∃ b ∈ s1.mgr.blocks, ∀ j, j < k →
      b.memory ≤ a + j * s.mgr.itemSize ∧
      a + j * s.mgr.itemSize + s.mgr.itemSize ≤
        b.memory + s.mgr.itemSize * s.mgr.itemsPerBlock) ∧
    (∀ i j, i < k → j < k → i ≠ j → a + i * s.mgr.itemSize ≠ a + j * s.mgr.itemSize) ∧
    (∀ j, j < k → ¬ HandedOut s.mgr (a + j * s.mgr.itemSize) ∧
      s.live (a + j * s.mgr.itemSize) = false) ∧
    (∀ j, j < k → s1.live (a + j * s.mgr.itemSize) = true) ∧
    (∃ n, ∀ fuel, n ≤ fuel → ∃ ret, s1.mgr.allocatedItems fuel = some ret ∧
      ∀ j, j < k → a + j * s.mgr.itemSize ∈ ret) := by
  obtain ⟨fl, hinv⟩ := reachable_inv _ s hr hno
  have hipbw := noOverflow_ipb s.mgr hinv.item8 hno
  have hS : 0 < s.mgr.itemSize := by have := hinv.item8; unfold PTR_SIZE at this; omega
  obtain ⟨m1, hn, hm1, hl, _⟩ := step_newItems_ok s k malloc a s1 h
  have hstep := newItems_spec s.mgr k malloc hipbw hinv.uninit_le _ _ hn
  obtain ⟨fl1, hinv1⟩ := (inv_step s _ fl hinv hno hv).1 _ s1 h
  have hpar := step_params s (.newItems k malloc)
  rw [h] at hpar
  have hlive1 : ∀ j, j < k → s1.live (a + j * s.mgr.itemSize) = true := by
    intro j hj
    rw [hl]
    simp only [Bool.or_eq_true]
    left
    rw [inRun_iff _ _ _ _ hS]
    exact ⟨j, hj, rfl⟩
  have hnot : ∀ x, ¬ HandedOut s.mgr x → s.live x = false := by
    intro x hx
    cases hlx : s.live x with
    | false => rfl
    | true => exact absurd ((hinv.live_iff x).mp hlx).1 hx
  refine ⟨?_, ?_, ?_, hlive1, ?_⟩
  · by_cases hk : 1 ≤ k
    · obtain ⟨b, hb, hfacts⟩ := allocStep_facts s.mgr s.live fl hinv hno k hk malloc hv.2 a m1
        hstep
      exact ⟨b, by rw [hm1]; exact hb, fun j hj => ⟨(hfacts j hj).1, (hfacts j hj).2.1⟩⟩
    · obtain ⟨b, hb⟩ := List.exists_mem_of_ne_nil _ hinv1.blocks_ne
      exact ⟨b, hb, fun j hj => by omega⟩
  · intro i j _ _ hij he
    have : i * s.mgr.itemSize = j * s.mgr.itemSize := by omega
    exact hij (Nat.eq_of_mul_eq_mul_right hS this)
  · intro j hj
    obtain ⟨b, hb, hfacts⟩ := allocStep_facts s.mgr s.live fl hinv hno k (by omega) malloc hv.2
      a m1 hstep
    exact ⟨(hfacts j hj).2.2, hnot _ (hfacts j hj).2.2⟩
  · have hipb1 : s1.mgr.itemsPerBlock < UINT := by rw [hpar.2]; exact hipb
    refine ⟨max s1.mgr.itemsPerBlock fl1.length, ?_⟩
    intro fuel hf
    obtain ⟨ret, hret, hmem⟩ := allocatedItems_of_inv s1.mgr s1.live fl1 hinv1 hipb1 fuel
      (le_trans (le_max_left _ _) hf) (le_trans (le_max_right _ _) hf)
    exact ⟨ret, hret, fun j hj => (hmem _).mpr (hlive1 j hj)⟩

/-! ## Claims C4 to C7 -/

/-- Witness of C4: `newItems(2)` on `sampleState` is served by the second block. -/
theorem newItems_run_witness :
    Reachable sampleState ∧ NoOverflow sampleState.mgr ∧
    sampleState.mgr.itemsPerBlock < UINT ∧ ValidOp sampleState (.newItems 2 (mallocAt 0)) ∧
    step sampleState (.newItems 2 (mallocAt 0)) =
      (.ok (some 8208), (step sampleState (.newItems 2 (mallocAt 0))).2) ∧
    (∀ j, j < 2 → ¬ HandedOut sampleState.mgr (8208 + j * sampleState.mgr.itemSize) ∧
      sampleState.live (8208 + j * sampleState.mgr.itemSize) = false) :=
  ⟨sampleState_reachable _ (fun _ _ => trivial), by decide, by decide, by decide, by rfl,
    (newItems_run sampleState (sampleState_reachable _ (fun _ _ => trivial)) (by decide)
      (by decide) 2 (mallocAt 0) (by decide) 8208 _ (by rfl)).2.2.1⟩

/-- C4 as stated fails.  On the pool `newManager(2^33, 2^31 + 1)` the product of the sizes
wraps around to `2^33`: `newItems(2^31)` returns `2^40 + 2^33`, the first address of its run,
which is live already (it is the second item of the run before).  On the pool
`newManager(8, 2^32)`, after `newItems(2^32)` returned `2^40`, `allocatedItems` does not
return. -/
theorem newItems_run_overlaps :
    (Reachable adjacentRun ∧
      ValidOp adjacentRun (.newItems (2 ^ 31) (mallocAt (2 ^ 40 + 2 ^ 33))) ∧
      (step adjacentRun (.newItems (2 ^ 31) (mallocAt (2 ^ 40 + 2 ^ 33)))).1 =
        .ok (some (2 ^ 40 + 2 ^ 33)) ∧
      adjacentRun.live (2 ^ 40 + 2 ^ 33 + 0 * adjacentRun.mgr.itemSize) = true) ∧
    (Reachable (startAt 8 (2 ^ 32) (2 ^ 40)) ∧
      ValidOp (startAt 8 (2 ^ 32) (2 ^ 40)) (.newItems (2 ^ 32) (mallocAt 0)) ∧
      step (startAt 8 (2 ^ 32) (2 ^ 40)) (.newItems (2 ^ 32) (mallocAt 0)) =
        (.ok (some (2 ^ 40)), hugeState) ∧
      ∀ fuel, hugeState.mgr.allocatedItems fuel = none) :=
  ⟨⟨reachable_run _ _ _ (adjacentStart_reachable _) (fun _ _ => trivial) (by decide),
      by decide, by rfl, by decide⟩,
    reachable_startAt _ 8 (2 ^ 32) (2 ^ 40) (by decide) (by decide) (by decide) (by decide)
      (by decide),
    by decide, by rfl, hugeState_allocatedItems⟩

/-- C5 (amended): for a pool with `itemSize * itemsPerBlock < 2^64`, in every state reached
by valid calls, the address a valid `newItem` returns is `memory + i * itemSize` (which is
also what `itemAtIndex` computes) for a block of the manager and an index
`i < itemsPerBlock`. -/
theorem newItem_returns_slot (s : Sys) (hr : Reachable s) (hno : NoOverflow s.mgr)
    (malloc : Nat → Nat) (hv : ValidOp s (.newItem malloc)) (a : Nat) (s1 : Sys)
    (h : step s (.newItem malloc) = (.ok (some a), s1)) :
    ∃ b ∈ s1.mgr.blocks, ∃ i, i < s1.mgr.itemsPerBlock ∧
      a = b.memory + i * s1.mgr.itemSize ∧ a = b.itemAtIndex s1.mgr.itemSize i := by
  obtain ⟨fl, hinv⟩ := reachable_inv _ s hr hno
  obtain ⟨fl1, hinv1⟩ := (inv_step s _ fl hinv hno hv).1 _ s1 h
  obtain ⟨m1, _, _, hl, _⟩ := step_newItem_ok s malloc a s1 h
  have hlive : s1.live a = true := by rw [hl]; simp
  obtain ⟨b, hb, i, hi, hx⟩ := ((hinv1.live_iff a).mp hlive).1
  have hS : 0 < s1.mgr.itemSize := by have := hinv1.item8; unfold PTR_SIZE at this; omega
  refine ⟨b, hb, i, by omega, hx, ?_⟩
  rw [hx]
  exact (itemAtIndex_eq b _ _ i (by omega) (hinv1.mem_ok _ (List.mem_map_of_mem _ hb)).2
    hS).symm

/-- Witness of C5: `newItem` on `sampleState` returns a slot of the first block. -/
theorem newItem_returns_slot_witness :
    Reachable sampleState ∧ NoOverflow sampleState.mgr ∧
    ValidOp sampleState (.newItem (mallocAt 0)) ∧
    step sampleState (.newItem (mallocAt 0)) =
      (.ok (some 4112), (step sampleState (.newItem (mallocAt 0))).2) ∧
    ∃ b ∈ (step sampleState (.newItem (mallocAt 0))).2.mgr.blocks, ∃ i,
      i < (step sampleState (.newItem (mallocAt 0))).2.mgr.itemsPerBlock ∧
      4112 = b.memory + i * (step sampleState (.newItem (mallocAt 0))).2.mgr.itemSize ∧
      4112 = b.itemAtIndex (step sampleState (.newItem (mallocAt 0))).2.mgr.itemSize i :=
  ⟨sampleState_reachable _ (fun _ _ => trivial), by decide, by decide, by rfl,
    newItem_returns_slot sampleState (sampleState_reachable _ (fun _ _ => trivial))
      (by decide) (mallocAt 0) (by decide) 4112 _ (by rfl)⟩

/-- C5 as stated fails on the pool `newManager(2^63 + 2, 4)`, where the product of the
sizes wraps around and the slots at 4096 and 4100 overlap: after calls of `newItem` and
valid calls of `deleteItem` only, `newItem` returns 17592186044416, which is no slot of any
block. -/
theorem newItem_returns_stray_address :
    ReachableBy SingleItemCall strayState ∧ PTR_SIZE ≤ strayState.mgr.itemSize ∧
    ValidOp strayState (.newItem (mallocAt 0)) ∧
    (step strayState (.newItem (mallocAt 0))).1 = .ok (some 17592186044416) ∧
    ∀ b ∈ (step strayState (.newItem (mallocAt 0))).2.mgr.blocks, ∀ i,
      i < strayState.mgr.itemsPerBlock →
      17592186044416 ≠ b.memory + i * strayState.mgr.itemSize ∧
      17592186044416 ≠ b.itemAtIndex strayState.mgr.itemSize i :=
  ⟨reachable_run _ strayOps _
      (reachable_startAt _ (2 ^ 63 + 2) 4 4096 (by decide) (by decide) (by decide) (by decide)
        (by decide)) (by decide) (by decide),
    by decide, by decide, by rfl, by decide⟩

/-- C6: constructing a manager fails with "item size must be at least of size of a pointer"
exactly when `itemSize < sizeof(void*)`, whatever `itemsPerBlock` is and whatever `malloc`
would answer (the check comes before any block is created); no manager is produced then. -/
theorem construct_invalidItemSize_iff (itemSize itemsPerBlock : Nat) (malloc : Nat → Nat)
    (heap : Heap) :
    newManager itemSize itemsPerBlock malloc heap = .error .invalidItemSize ↔
      itemSize < PTR_SIZE := by
  unfold newManager MemoryManager.construct
  by_cases h : itemSize < PTR_SIZE
  · simp [h]
  · simp only [h, if_false, iff_false]
    rw [addBlock_eq]
    split_ifs <;> simp

/-- C7: a successfully constructed manager has exactly one block, whose
`unitializedItems` is `itemsPerBlock`, and a null `head`; `allocatedItems` on it returns
the empty set. -/
theorem construct_initial_state (itemSize itemsPerBlock : Nat) (malloc : Nat → Nat)
    (heap : Heap) (m : MemoryManager)
    (h : newManager itemSize itemsPerBlock malloc heap = .ok m) :
    m.itemsPerBlock = itemsPerBlock ∧
    (∃ memory, m.blocks = [{ unitializedItems := itemsPerBlock, memory := memory }]) ∧
    m.head = 0 ∧ ∀ fuel, m.allocatedItems fuel = some [] := by
  unfold newManager MemoryManager.construct at h
  by_cases h8 : itemSize < PTR_SIZE
  · simp [h8] at h
  · simp only [h8, if_false] at h
    rw [addBlock_eq] at h
    by_cases hp : malloc (MemoryManager.members itemSize itemsPerBlock heap).request = 0
    · simp [hp] at h
    · simp only [hp, if_false, Except.ok.injEq] at h
      subst h
      refine ⟨rfl, ⟨_, rfl⟩, rfl, ?_⟩
      intro fuel
      have hsub : subw itemsPerBlock itemsPerBlock = 0 := by
        unfold subw
        have h1 : itemsPerBlock + WORD - itemsPerBlock % WORD =
            WORD * (itemsPerBlock / WORD + 1) := by
          have := Nat.div_add_mod itemsPerBlock WORD
          have := Nat.mod_le itemsPerBlock WORD
          rw [Nat.mul_add]; omega
        rw [h1, Nat.mul_mod_right]
      simp only [MemoryManager.allocatedItems, MemoryManager.members, List.nil_append,
        addItemsFromBlocks, addItemsFromBlock, hsub]
      cases fuel <;> simp [addItemsLoop, eraseFreed]

/-- Witness of C7 on `newManager(16, 4)`. -/
theorem construct_initial_state_witness :
    newManager 16 4 (mallocAt 4096) zeroHeap = .ok (startAt 16 4 4096).mgr ∧
    (startAt 16 4 4096).mgr.itemsPerBlock = 4 ∧
    (∃ memory, (startAt 16 4 4096).mgr.blocks =
      [{ unitializedItems := 4, memory := memory }]) ∧
    (startAt 16 4 4096).mgr.head = 0 ∧
    ∀ fuel, (startAt 16 4 4096).mgr.allocatedItems fuel = some [] :=
  ⟨rfl, construct_initial_state 16 4 (mallocAt 4096) zeroHeap _ rfl⟩

/-! ## Claims C8 and C9 -/

theorem obtain_not_oom (S ipb k : Nat) (b : Block) :
    obtainUnitializedItems S ipb b k ≠ .error .outOfMemory := by
  unfold obtainUnitializedItems
  split <;> simp

theorem obtainFromNewBlock_oom (m : MemoryManager) (k : Nat) (malloc : Nat → Nat)
    (h : (m.obtainFromNewBlock k malloc).1 = .error .outOfMemory) :
    (m.obtainFromNewBlock k malloc).2 = m := by
  unfold MemoryManager.obtainFromNewBlock at h ⊢
  rw [addBlock_eq] at h ⊢
  by_cases hp : malloc m.request = 0
  · simp [hp]
  · simp only [hp, if_false] at h ⊢
    cases ho : obtainUnitializedItems m.itemSize m.itemsPerBlock
        { unitializedItems := m.itemsPerBlock, memory := malloc m.request } k with
    | error e =>
      rw [ho] at h
      simp only [Except.error.injEq] at h
      subst h
      exact absurd ho (obtain_not_oom _ _ _ _)
    | ok v =>
      rw [ho] at h
      simp at h

theorem scanBlocks_not_oom (S ipb k : Nat) :
    ∀ (blocks : List Block) (r : Except Failure Nat) (blocks1 : List Block),
      scanBlocks S ipb k blocks = some (r, blocks1) → r ≠ .error .outOfMemory := by
  intro blocks
  induction blocks with
  | nil => intro r blocks1 h; simp [scanBlocks] at h
  | cons b rest ih =>
    intro r blocks1 h
    unfold scanBlocks at h
    split at h
    · cases ho : obtainUnitializedItems S ipb b k with
      | error e =>
        rw [ho] at h
        simp only [Option.some.injEq, Prod.mk.injEq] at h
        rw [← h.1]
        intro he
        simp only [Except.error.injEq] at he
        subst he
        exact obtain_not_oom _ _ _ _ ho
      | ok v =>
        rw [ho] at h
        simp only [Option.some.injEq, Prod.mk.injEq] at h
        rw [← h.1]
        simp
    · cases hs : scanBlocks S ipb k rest with
      | none => rw [hs] at h; simp at h
      | some v =>
        obtain ⟨r1, rest1⟩ := v
        rw [hs] at h
        simp only [Option.some.injEq, Prod.mk.injEq] at h
        rw [← h.1]
        exact ih r1 rest1 hs

theorem newItem_oom (m : MemoryManager) (malloc : Nat → Nat)
    (h : (m.newItem malloc).1 = .error .outOfMemory) : (m.newItem malloc).2 = m := by
  unfold MemoryManager.newItem at h ⊢
  split at h
  · simp at h
  · rename_i hh
    rw [if_neg hh]
    cases hl : m.blocks.getLast? with
    | none => rfl
    | some last =>
      rw [hl] at h
      simp only at h ⊢
      split at h
      · rename_i hu
        rw [if_pos hu]
        unfold obtainUnitializedItem at h ⊢
        cases ho : obtainUnitializedItems m.itemSize m.itemsPerBlock last 1 with
        | error e => rfl
        | ok v => rw [ho] at h; simp at h
      · rename_i hu
        rw [if_neg hu]
        exact obtainFromNewBlock_oom m 1 malloc h

theorem newItems_oom (m : MemoryManager) (count : Nat) (malloc : Nat → Nat)
    (h : (m.newItems count malloc).1 = .error .outOfMemory) :
    (m.newItems count malloc).2 = m := by
  unfold MemoryManager.newItems at h ⊢
  split at h
  · simp at h
  · rename_i hc
    rw [if_neg hc]
    cases hs : scanBlocks m.itemSize m.itemsPerBlock count m.blocks with
    | none =>
      rw [hs] at h
      exact obtainFromNewBlock_oom m count malloc h
    | some v =>
      obtain ⟨r1, blocks1⟩ := v
      rw [hs] at h
      simp only at h
      exact absurd h (scanBlocks_not_oom _ _ _ _ _ _ hs)

/-- C8: when `newItem` or `newItems(count)` ends with "out of memory" (the buffer of a new
block could not be allocated), the manager is left exactly as it was before the call:
block sequence, counters, `head` and memory; a later call then behaves as it would have
behaved without the failed one. -/
theorem allocation_failure_atomic (m : MemoryManager) (count : Nat) (malloc : Nat → Nat) :
    ((m.newItem malloc).1 = .error .outOfMemory →
      (m.newItem malloc).2 = m ∧
      (∀ f, (m.newItem malloc).2.newItem f = m.newItem f) ∧
      (∀ k f, (m.newItem malloc).2.newItems k f = m.newItems k f) ∧
      (∀ x, (m.newItem malloc).2.deleteItem x = m.deleteItem x)) ∧
    ((m.newItems count malloc).1 = .error .outOfMemory →
      (m.newItems count malloc).2 = m ∧
      (∀ f, (m.newItems count malloc).2.newItem f = m.newItem f) ∧
      (∀ k f, (m.newItems count malloc).2.newItems k f = m.newItems k f) ∧
      (∀ x, (m.newItems count malloc).2.deleteItem x = m.deleteItem x)) := by
  constructor
  · intro h
    have e := newItem_oom m malloc h
    refine ⟨e, ?_, ?_, ?_⟩
    · intro f; rw [e]
    · intro k f; rw [e]
    · intro x; rw [e]
  · intro h
    have e := newItems_oom m count malloc h
    refine ⟨e, ?_, ?_, ?_⟩
    · intro f; rw [e]
    · intro k f; rw [e]
    · intro x; rw [e]

/-- Witness of C8: on a pool whose only block is used up, `malloc` answers null. -/
theorem allocation_failure_atomic_witness :
    (fullState.mgr.newItem (mallocAt 0)).1 = .error .outOfMemory ∧
    (fullState.mgr.newItem (mallocAt 0)).2 = fullState.mgr ∧
    (fullState.mgr.newItems 1 (mallocAt 0)).1 = .error .outOfMemory ∧
    (fullState.mgr.newItems 1 (mallocAt 0)).2 = fullState.mgr :=
  ⟨rfl, ((allocation_failure_atomic fullState.mgr 1 (mallocAt 0)).1 rfl).1, rfl,
    ((allocation_failure_atomic fullState.mgr 1 (mallocAt 0)).2 rfl).1⟩

/-- What the boundary function `newItem(manager)` does when creating a new block fails
(the free list is empty, the last block has no uninitialized item left and `malloc`
answers null): the "out of memory" error of `Block::Block` leaves the boundary function,
no pointer is returned, and the manager is as it was. -/
theorem boundary_newItem_propagates (manager : MemoryManager) (malloc : Nat → Nat)
    (last : Block) (hh : manager.head = 0) (hl : manager.blocks.getLast? = some last)
    (hu : last.unitializedItems = 0) (hm : malloc manager.request = 0) :
    newItem manager malloc = (.error .outOfMemory, manager) := by
  unfold newItem MemoryManager.newItem
  rw [if_neg (not_not.mpr hh), hl]
  simp only
  rw [if_neg (by omega)]
  unfold MemoryManager.obtainFromNewBlock
  rw [addBlock_eq, if_pos hm]

/-- The boundary function `newItem(manager)` on a pool whose only block is used up. -/
theorem boundary_newItem_propagates_witness :
    fullState.mgr.head = 0 ∧
    fullState.mgr.blocks.getLast? = some { unitializedItems := 0, memory := 4096 } ∧
    mallocAt 0 fullState.mgr.request = 0 ∧
    newItem fullState.mgr (mallocAt 0) = (.error .outOfMemory, fullState.mgr) :=
  ⟨rfl, rfl, rfl,
    boundary_newItem_propagates fullState.mgr (mallocAt 0)
      { unitializedItems := 0, memory := 4096 } rfl rfl rfl rfl⟩

/-- C9, evaluated at the failing input: on the reachable pool `newManager(16, 1)` whose
only block is used up by one `newItem`, when `malloc` answers null the boundary function
`newItem(manager)` does not return the null pointer that the contract asks for (and that
the boundary function `acquireItemList` returns when its own `malloc` fails); the
"out of memory" error of `Block::Block` leaves the call. -/
theorem boundary_newItem_out_of_memory :
    Reachable fullState ∧
    (newItem fullState.mgr (mallocAt 0)).1 = .error .outOfMemory ∧
    (newItem fullState.mgr (mallocAt 0)).1 ≠ .ok 0 :=
  ⟨reachable_run _ _ _
      (reachable_startAt _ 16 1 4096 (by decide) (by decide) (by decide) (by decide)
        (by decide)) (fun _ _ => trivial) (by decide),
    rfl, by
      intro h
      have e : (newItem fullState.mgr (mallocAt 0)).1 = .error .outOfMemory := rfl
      rw [e] at h
      cases h⟩

/-! ## The operations as total functions -/

theorem obtainFromNewBlock_total (m : MemoryManager) (k : Nat) (malloc : Nat → Nat)
    (hipb : m.itemsPerBlock < WORD) :
    m.obtainFromNewBlock k malloc =
      if malloc m.request = 0 then (.error .outOfMemory, m)
      else if k ≤ m.itemsPerBlock then
        (.ok (Block.itemAtIndex { unitializedItems := m.itemsPerBlock, memory := malloc m.request }
            m.itemSize 0),
         { m with blocks := m.blocks ++
            [{ unitializedItems := m.itemsPerBlock - k, memory := malloc m.request }] })
      else
        (.error .assertionFailed,
         { m with blocks := m.blocks ++
            [{ unitializedItems := m.itemsPerBlock, memory := malloc m.request }] }) := by
  unfold MemoryManager.obtainFromNewBlock
  rw [addBlock_eq]
  by_cases hp : malloc m.request = 0
  · simp [hp]
  · simp only [hp, if_false]
    by_cases hk : k ≤ m.itemsPerBlock
    · rw [obtain_ok m.itemSize m.itemsPerBlock k
        { unitializedItems := m.itemsPerBlock, memory := malloc m.request } hk (le_refl _)
        hipb]
      simp [hk, List.dropLast_concat]
    · rw [obtain_fail m.itemSize m.itemsPerBlock k
        { unitializedItems := m.itemsPerBlock, memory := malloc m.request }
        (by simpa using hk)]
      simp [hk]

theorem newItem_last (m : MemoryManager) (malloc : Nat → Nat) (hc : Counters m)
    (hh : m.head = 0) (init : List Block) (last : Block) (hbl : m.blocks = init ++ [last]) :
    m.newItem malloc =
      if 0 < last.unitializedItems then
        (.ok (last.itemAtIndex m.itemSize (m.itemsPerBlock - last.unitializedItems)),
         { m with blocks := init ++
            [{ last with unitializedItems := last.unitializedItems - 1 }] })
      else m.obtainFromNewBlock 1 malloc := by
  unfold MemoryManager.newItem
  rw [if_neg (not_not.mpr hh)]
  have hl : m.blocks.getLast? = some last := by rw [hbl]; simp
  have hd : m.blocks.dropLast = init := by rw [hbl]; simp
  rw [hl]
  simp only
  by_cases hu : 0 < last.unitializedItems
  · rw [if_pos hu, if_pos hu]
    unfold obtainUnitializedItem
    rw [obtain_ok m.itemSize m.itemsPerBlock 1 last hu
      (hc.2.2 last (by rw [hbl]; simp)) hc.1, hd]
  · rw [if_neg hu, if_neg hu]

theorem scanBlocks_first (S ipb k : Nat) (hipb : ipb < WORD) :
    ∀ (pre : List Block) (b : Block) (post : List Block),
      (∀ c ∈ pre, c.unitializedItems < k) → k ≤ b.unitializedItems →
      b.unitializedItems ≤ ipb →
      scanBlocks S ipb k (pre ++ b :: post) =
        some (.ok (b.itemAtIndex S (ipb - b.unitializedItems)),
          pre ++ { b with unitializedItems := b.unitializedItems - k } :: post) := by
  intro pre
  induction pre with
  | nil =>
    intro b post _ hk hb
    simp only [List.nil_append, scanBlocks]
    rw [if_pos hk, obtain_ok S ipb k b hk hb hipb]
  | cons c pre ih =>
    intro b post hpre hk hb
    have hc : ¬ c.unitializedItems ≥ k := by
      have := hpre c (List.mem_cons_self _ _); omega
    have hrec := ih b post (fun d hd => hpre d (List.mem_cons_of_mem _ hd)) hk hb
    rw [List.cons_append]
    unfold scanBlocks
    rw [if_neg hc, hrec]
    rfl

theorem scanBlocks_all_small (S ipb k : Nat) :
    ∀ blocks : List Block, (∀ c ∈ blocks, c.unitializedItems < k) →
      scanBlocks S ipb k blocks = none := by
  intro blocks
  induction blocks with
  | nil => intro _; rfl
  | cons c rest ih =>
    intro h
    have hc : ¬ c.unitializedItems ≥ k := by
      have := h c (List.mem_cons_self _ _); omega
    simp only [scanBlocks]
    rw [if_neg hc, ih (fun d hd => h d (List.mem_cons_of_mem _ hd))]

/-- Every block list splits at its first block with at least `k` uninitialized items,
unless no block has that many. -/
theorem first_qualifying (k : Nat) :
    ∀ blocks : List Block, (∀ c ∈ blocks, c.unitializedItems < k) ∨
      ∃ pre b post, blocks = pre ++ b :: post ∧ (∀ c ∈ pre, c.unitializedItems < k) ∧
        k ≤ b.unitializedItems := by
  intro blocks
  induction blocks with
  | nil => left; intro c hc; cases hc
  | cons c rest ih =>
    by_cases hc : k ≤ c.unitializedItems
    · right; exact ⟨[], c, rest, rfl, (by intro d hd; cases hd), hc⟩
    · rcases ih with h | ⟨pre, b, post, h1, h2, h3⟩
      · left
        intro d hd
        rcases List.mem_cons.mp hd with rfl | hd
        · omega
        · exact h d hd
      · right
        refine ⟨c :: pre, b, post, by simp [h1], ?_, h3⟩
        intro d hd
        rcases List.mem_cons.mp hd with rfl | hd
        · omega
        · exact h2 d hd

theorem counters_construct (S ipb : Nat) (malloc : Nat → Nat) (heap : Heap)
    (m : MemoryManager) (hipb : ipb < WORD) (hc : newManager S ipb malloc heap = .ok m) :
    Counters m := by
  obtain ⟨h1, ⟨mem, h2⟩, _, _⟩ := construct_initial_state S ipb malloc heap m hc
  refine ⟨by rw [h1]; exact hipb, by rw [h2]; simp, ?_⟩
  intro b hb
  rw [h2] at hb
  simp only [List.mem_singleton] at hb
  subst hb
  rw [h1]

/-! ## The counters stay in range -/

theorem counters_append (m : MemoryManager) (hc : Counters m) (u p : Nat)
    (hu : u ≤ m.itemsPerBlock) :
    Counters { m with blocks := m.blocks ++ [{ unitializedItems := u, memory := p }] } := by
  refine ⟨hc.1, by simp, ?_⟩
  intro b hb
  rcases List.mem_append.mp hb with hb | hb
  · exact hc.2.2 b hb
  · simp only [List.mem_singleton] at hb
    subst hb; exact hu

theorem counters_obtainFromNewBlock (m : MemoryManager) (hc : Counters m) (k : Nat)
    (malloc : Nat → Nat) : Counters (m.obtainFromNewBlock k malloc).2 := by
  rw [obtainFromNewBlock_total m k malloc hc.1]
  split_ifs
  · exact hc
  · exact counters_append m hc _ _ (Nat.sub_le _ _)
  · exact counters_append m hc _ _ (le_refl _)

theorem blocks_split_last (m : MemoryManager) (hc : Counters m) :
    ∃ init last, m.blocks = init ++ [last] :=
  ⟨m.blocks.dropLast, m.blocks.getLast hc.2.1,
    (List.dropLast_append_getLast hc.2.1).symm⟩

theorem counters_replace (m : MemoryManager) (hc : Counters m) (pre post : List Block)
    (b : Block) (hbl : m.blocks = pre ++ b :: post) (k : Nat) :
    Counters { m with blocks :=
      pre ++ { b with unitializedItems := b.unitializedItems - k } :: post } := by
  refine ⟨hc.1, by simp, ?_⟩
  intro c hcm
  simp only at hcm
  rcases List.mem_append.mp hcm with h | h
  · exact hc.2.2 c (by rw [hbl]; exact List.mem_append_left _ h)
  · rcases List.mem_cons.mp h with rfl | h
    · have := hc.2.2 b (by rw [hbl]; simp)
      simp only; omega
    · exact hc.2.2 c (by rw [hbl]; simp [h])

theorem counters_newItem (m : MemoryManager) (hc : Counters m) (malloc : Nat → Nat) :
    Counters (m.newItem malloc).2 := by
  by_cases hh : m.head = 0
  · obtain ⟨init, last, hbl⟩ := blocks_split_last m hc
    rw [newItem_last m malloc hc hh init last hbl]
    split_ifs
    · have := counters_replace m hc init [] last hbl 1
      exact this
    · exact counters_obtainFromNewBlock m hc 1 malloc
  · unfold MemoryManager.newItem
    rw [if_pos hh]
    exact hc

theorem newItems_first (m : MemoryManager) (hc : Counters m) (count : Nat)
    (malloc : Nat → Nat) (hcount : count ≤ m.itemsPerBlock) (pre post : List Block) (b : Block)
    (hbl : m.blocks = pre ++ b :: post) (hpre : ∀ c ∈ pre, c.unitializedItems < count)
    (hb : count ≤ b.unitializedItems) :
    m.newItems count malloc =
      (.ok (b.itemAtIndex m.itemSize (m.itemsPerBlock - b.unitializedItems)),
        { m with blocks :=
            pre ++ { b with unitializedItems := b.unitializedItems - count } :: post }) := by
  unfold MemoryManager.newItems
  rw [if_neg (by omega), hbl,
    scanBlocks_first m.itemSize m.itemsPerBlock count hc.1 pre b post hpre hb
      (hc.2.2 b (by rw [hbl]; simp))]

theorem newItems_none (m : MemoryManager) (count : Nat) (malloc : Nat → Nat)
    (hcount : count ≤ m.itemsPerBlock)
    (hall : ∀ c ∈ m.blocks, c.unitializedItems < count) :
    m.newItems count malloc = m.obtainFromNewBlock count malloc := by
  unfold MemoryManager.newItems
  rw [if_neg (by omega), scanBlocks_all_small _ _ _ _ hall]

theorem counters_newItems (m : MemoryManager) (hc : Counters m) (count : Nat)
    (malloc : Nat → Nat) : Counters (m.newItems count malloc).2 := by
  by_cases hcount : count ≤ m.itemsPerBlock
  · rcases first_qualifying count m.blocks with hall | ⟨pre, b, post, hbl, hpre, hb⟩
    · rw [newItems_none m count malloc hcount hall]
      exact counters_obtainFromNewBlock m hc count malloc
    · rw [newItems_first m hc count malloc hcount pre post b hbl hpre hb]
      exact counters_replace m hc pre post b hbl count
  · unfold MemoryManager.newItems
    rw [if_pos (by omega)]
    exact hc

theorem counters_step (s : Sys) (hc : Counters s.mgr) (op : Op) :
    Counters (step s op).2.mgr := by
  cases op with
  | newItem malloc =>
    have h := counters_newItem s.mgr hc malloc
    simp only [step]
    split
    · rename_i e m heq; rw [heq] at h; exact h
    · rename_i a m heq; rw [heq] at h; exact h
  | newItems count malloc =>
    have h := counters_newItems s.mgr hc count malloc
    simp only [step]
    split
    · rename_i e m heq; rw [heq] at h; exact h
    · rename_i a m heq; rw [heq] at h; exact h
  | deleteItem item => exact hc
  | write slot offset byte => exact hc

theorem reachable_counters (allowed : Op → Prop) (s : Sys) (hr : ReachableBy allowed s) :
    Counters s.mgr := by
  induction hr with
  | init S ipb malloc heap m _ hipb _ hc => exact counters_construct S ipb malloc heap m hipb hc
  | step s op r s1 _ _ _ hstep ih =>
    have := counters_step s ih op
    rw [hstep] at this
    exact this
  | fail s op s1 _ _ _ hstep ih =>
    have := counters_step s ih op
    rw [hstep] at this
    exact this

/-! ## Claims C11, C12 and C19 -/

/-- C12: in every reachable state, for `count ≤ itemsPerBlock`, `newItems(count)` serves
from the first block in creation order whose `unitializedItems ≥ count`: it returns that
block's slot at index `itemsPerBlock - unitializedItems` and reduces that counter by
`count`.  If no block qualifies it appends exactly one block and serves from its index 0
(or, when `malloc` answers null, throws and changes nothing).  In every case `head` and
the memory holding the free list links are unchanged, and no other counter changes. -/
theorem newItems_policy (s : Sys) (hr : Reachable s) (count : Nat)
    (hcount : count ≤ s.mgr.itemsPerBlock) (malloc : Nat → Nat) :
    (∀ pre b post, s.mgr.blocks = pre ++ b :: post →
      (∀ c ∈ pre, c.unitializedItems < count) → count ≤ b.unitializedItems →
      s.mgr.newItems count malloc =
        (.ok (b.itemAtIndex s.mgr.itemSize (s.mgr.itemsPerBlock - b.unitializedItems)),
          { s.mgr with blocks :=
              pre ++ { b with unitializedItems := b.unitializedItems - count } :: post })) ∧
    ((∀ c ∈ s.mgr.blocks, c.unitializedItems < count) → malloc s.mgr.request ≠ 0 →
      s.mgr.newItems count malloc =
        (.ok (Block.itemAtIndex
            { unitializedItems := s.mgr.itemsPerBlock, memory := malloc s.mgr.request }
            s.mgr.itemSize 0),
         { s.mgr with blocks := s.mgr.blocks ++
            [{ unitializedItems := s.mgr.itemsPerBlock - count,
               memory := malloc s.mgr.request }] })) ∧
    ((∀ c ∈ s.mgr.blocks, c.unitializedItems < count) → malloc s.mgr.request = 0 →
      s.mgr.newItems count malloc = (.error .outOfMemory, s.mgr)) ∧
    ((s.mgr.newItems count malloc).2.head = s.mgr.head ∧
      (s.mgr.newItems count malloc).2.heap = s.mgr.heap) := by
  have hc := reachable_counters _ s hr
  refine ⟨?_, ?_, ?_, ?_⟩
  · intro pre b post hbl hpre hb
    exact newItems_first s.mgr hc count malloc hcount pre post b hbl hpre hb
  · intro hall hp
    rw [newItems_none s.mgr count malloc hcount hall,
      obtainFromNewBlock_total s.mgr count malloc hc.1, if_neg hp, if_pos hcount]
  · intro hall hp
    rw [newItems_none s.mgr count malloc hcount hall,
      obtainFromNewBlock_total s.mgr count malloc hc.1, if_pos hp]
  · rcases first_qualifying count s.mgr.blocks with hall | ⟨pre, b, post, hbl, hpre, hb⟩
    · rw [newItems_none s.mgr count malloc hcount hall,
        obtainFromNewBlock_total s.mgr count malloc hc.1]
      split_ifs <;> exact ⟨rfl, rfl⟩
    · rw [newItems_first s.mgr hc count malloc hcount pre post b hbl hpre hb]
      exact ⟨rfl, rfl⟩

/-- C19: with `itemsPerBlock ≥ 1`, in every state reached by valid calls (so every
`newItems` had `count ≤ itemsPerBlock`) no assertion fails in `newItem` or in a
`newItems(count)` with `count ≤ itemsPerBlock`: each call of `obtainUnitializedItems` has
`unitializedItems ≥ count`; and `blocks.back()` is applied to a non-empty sequence. -/
theorem assertions_hold (s : Sys) (hr : Reachable s) (hipb : 1 ≤ s.mgr.itemsPerBlock)
    (malloc : Nat → Nat) :
    s.mgr.blocks ≠ [] ∧
    (s.mgr.newItem malloc).1 ≠ .error .assertionFailed ∧
    (s.mgr.newItem malloc).1 ≠ .error .emptyBack ∧
    ∀ count, count ≤ s.mgr.itemsPerBlock →
      (s.mgr.newItems count malloc).1 ≠ .error .assertionFailed := by
  have hc := reachable_counters _ s hr
  have hnew : ∀ k, k ≤ s.mgr.itemsPerBlock →
      (s.mgr.obtainFromNewBlock k malloc).1 ≠ .error .assertionFailed ∧
      (s.mgr.obtainFromNewBlock k malloc).1 ≠ .error .emptyBack := by
    intro k hk
    rw [obtainFromNewBlock_total s.mgr k malloc hc.1]
    split_ifs <;> simp
  have hitem : (s.mgr.newItem malloc).1 ≠ .error .assertionFailed ∧
      (s.mgr.newItem malloc).1 ≠ .error .emptyBack := by
    by_cases hh : s.mgr.head = 0
    · obtain ⟨init, last, hbl⟩ := blocks_split_last s.mgr hc
      rw [newItem_last s.mgr malloc hc hh init last hbl]
      split_ifs
      · simp
      · exact hnew 1 hipb
    · unfold MemoryManager.newItem
      rw [if_pos hh]
      simp
  refine ⟨hc.2.1, hitem.1, hitem.2, ?_⟩
  intro count hcount
  rcases first_qualifying count s.mgr.blocks with hall | ⟨pre, b, post, hbl, hpre, hb⟩
  · rw [newItems_none s.mgr count malloc hcount hall]
    exact (hnew count hcount).1
  · rw [newItems_first s.mgr hc count malloc hcount pre post b hbl hpre hb]
    simp

/-! ## Claim C16 -/

theorem olderFull_newItem (m : MemoryManager) (hc : Counters m) (malloc : Nat → Nat)
    (h : ∀ b ∈ m.blocks.dropLast, b.unitializedItems = 0) :
    ∀ b ∈ (m.newItem malloc).2.blocks.dropLast, b.unitializedItems = 0 := by
  by_cases hh : m.head = 0
  · obtain ⟨init, last, hbl⟩ := blocks_split_last m hc
    have hd : m.blocks.dropLast = init := by rw [hbl]; simp
    rw [newItem_last m malloc hc hh init last hbl]
    by_cases hu : 0 < last.unitializedItems
    · rw [if_pos hu]
      simp only [List.dropLast_concat]
      rw [← hd]; exact h
    · rw [if_neg hu, obtainFromNewBlock_total m 1 malloc hc.1]
      have hall : ∀ b ∈ m.blocks, b.unitializedItems = 0 := by
        intro b hb
        rw [hbl] at hb
        rcases List.mem_append.mp hb with hb | hb
        · exact h b (by rw [hd]; exact hb)
        · simp only [List.mem_singleton] at hb
          subst hb; omega
      split_ifs
      · exact h
      · simp only [List.dropLast_concat]; exact hall
      · simp only [List.dropLast_concat]; exact hall
  · unfold MemoryManager.newItem
    rw [if_pos hh]
    exact h

/-- C16: in every state reached from construction without `newItems` (by `newItem`, valid
`deleteItem` and writes of the client into its slots), every block other than the most
recently added one has `unitializedItems = 0`. -/
theorem older_blocks_used_up (s : Sys) (hr : ReachableBy WithoutNewItems s) :
    ∀ b ∈ s.mgr.blocks.dropLast, b.unitializedItems = 0 := by
  induction hr with
  | init S ipb malloc heap m _ hipb _ hc =>
    obtain ⟨_, ⟨mem, h2⟩, _, _⟩ := construct_initial_state S ipb malloc heap m hc
    intro b hb
    simp [Sys.initial, h2] at hb
  | step s op r s1 hreach hallow _ hstep ih =>
    have hc := reachable_counters _ s hreach
    cases op with
    | newItem malloc =>
      have h := olderFull_newItem s.mgr hc malloc ih
      simp only [step] at hstep
      split at hstep
      · simp at hstep
      · rename_i a m heq
        rw [heq] at h
        simp only [Prod.mk.injEq] at hstep
        rw [← hstep.2]
        exact h
    | newItems count malloc => exact absurd hallow (by simp [WithoutNewItems])
    | deleteItem item =>
      simp only [step, Prod.mk.injEq] at hstep
      rw [← hstep.2]
      exact ih
    | write slot offset byte =>
      simp only [step, Prod.mk.injEq] at hstep
      rw [← hstep.2]
      exact ih
  | fail s op s1 hreach hallow _ hstep ih =>
    have hc := reachable_counters _ s hreach
    cases op with
    | newItem malloc =>
      have h := olderFull_newItem s.mgr hc malloc ih
      simp only [step] at hstep
      split at hstep
      · rename_i e m heq
        rw [heq] at h
        simp only [Prod.mk.injEq] at hstep
        rw [← hstep.2]
        exact h
      · simp at hstep
    | newItems count malloc => exact absurd hallow (by simp [WithoutNewItems])
    | deleteItem item => simp [step] at hstep
    | write slot offset byte => simp [step] at hstep

/-! ## Claims C13 and C15 -/

theorem isSlot_apart (m : MemoryManager) (live : Nat → Bool) (fl : List Nat)
    (hinv : Inv m live fl) (x y : Nat) (hx : IsSlot m x) (hy : IsSlot m y) (hne : x ≠ y) :
    x + m.itemSize ≤ y ∨ y + m.itemSize ≤ x := by
  obtain ⟨b, hb, i, hi, rfl⟩ := hx
  obtain ⟨c, hc, j, hj, rfl⟩ := hy
  exact slot_apart m.itemSize m.itemsPerBlock _ hinv.disj b.memory c.memory i j
    (List.mem_map_of_mem _ hb) (List.mem_map_of_mem _ hc) hi hj hne

theorem handedOut_isSlot (m : MemoryManager) (x : Nat) (hx : HandedOut m x) : IsSlot m x := by
  obtain ⟨b, hb, i, hi, rfl⟩ := hx
  exact ⟨b, hb, i, by omega, rfl⟩

/-- C13 (amended): for a pool with `itemSize * itemsPerBlock < 2^64`, in every reachable
state, `deleteItem(x)` on a live `x` returns, makes `head` equal to `x` and stores the
previous `head` in the first bytes of `x`.  The blocks and their counters are unchanged, no
byte outside the first `sizeof(void*)` bytes of `x` changes, so the content of every other
slot is unchanged; `x` leaves the live set, every other address keeps being live or not,
and the free list is the one before with `x` in front. -/
theorem deleteItem_frame (s : Sys) (hr : Reachable s) (hno : NoOverflow s.mgr) (x : Nat)
    (hx : s.live x = true) :
    (step s (.deleteItem x)).1 = .ok none ∧
    (s.mgr.deleteItem x).head = x ∧
    storedPtr (s.mgr.deleteItem x).heap x = s.mgr.head ∧
    (s.mgr.deleteItem x).blocks = s.mgr.blocks ∧
    (∀ b, b < x ∨ x + PTR_SIZE ≤ b → (s.mgr.deleteItem x).heap b = s.mgr.heap b) ∧
    (∀ y, IsSlot s.mgr y → y ≠ x → ∀ k, k < s.mgr.itemSize →
      (s.mgr.deleteItem x).heap (y + k) = s.mgr.heap (y + k)) ∧
    (step s (.deleteItem x)).2.live x = false ∧
    (∀ y, y ≠ x → (step s (.deleteItem x)).2.live y = s.live y) ∧
    (∃ fl, FreeChain s.mgr.heap s.mgr.head fl ∧ x ∉ fl ∧
      FreeChain (s.mgr.deleteItem x).heap (s.mgr.deleteItem x).head (x :: fl)) := by
  obtain ⟨fl, hinv⟩ := reachable_inv _ s hr hno
  have hinv1 := inv_delete s.mgr s.live fl hinv x hx
  obtain ⟨hxh, hxfl⟩ := (hinv.live_iff x).mp hx
  have h8 := hinv.item8
  have hframe : ∀ b, b < x ∨ x + PTR_SIZE ≤ b →
      (s.mgr.deleteItem x).heap b = s.mgr.heap b := by
    intro b hb
    have : ¬ (x ≤ b ∧ b < x + PTR_SIZE) := by omega
    simp [MemoryManager.deleteItem, setStoredPtr, this]
  refine ⟨rfl, rfl, ?_, rfl, hframe, ?_, ?_, ?_, fl, hinv.chain, hxfl, hinv1.chain⟩
  · exact storedPtr_set_same _ _ _ (inv_head_lt s.mgr s.live fl hinv)
  · intro y hy hne k hk
    apply hframe
    rcases isSlot_apart s.mgr s.live fl hinv x y (handedOut_isSlot _ _ hxh) hy
      (fun h => hne h.symm) with h | h
    · right; omega
    · left; omega
  · simp [step]
  · intro y hy
    simp [step, hy]

/-- Witness of C13: `deleteItem(4096)` on `sampleState`. -/
theorem deleteItem_frame_witness :
    Reachable sampleState ∧ NoOverflow sampleState.mgr ∧ sampleState.live 4096 = true ∧
    (sampleState.mgr.deleteItem 4096).head = 4096 ∧
    storedPtr (sampleState.mgr.deleteItem 4096).heap 4096 = sampleState.mgr.head :=
  ⟨sampleState_reachable _ (fun _ _ => trivial), by decide, by decide,
    (deleteItem_frame sampleState (sampleState_reachable _ (fun _ _ => trivial)) (by decide)
      4096 (by decide)).2.1,
    (deleteItem_frame sampleState (sampleState_reachable _ (fun _ _ => trivial)) (by decide)
      4096 (by decide)).2.2.1⟩

/-- C13 as stated fails on the pool `newManager(2^63 + 2, 4)`, where the product of the
sizes wraps around and the slots at 4096 and 4100 overlap: `deleteItem(4100)` on the live
address 4100 changes the content of the other slot 4096, whose stored link goes from 8192
to 17592186052608. -/
theorem deleteItem_changes_other_slot :
    Reachable wrappedTwoFreed ∧ wrappedTwoFreed.live 4100 = true ∧
    IsSlot wrappedTwoFreed.mgr 4096 ∧
    storedPtr wrappedTwoFreed.mgr.heap 4096 = 8192 ∧
    storedPtr (wrappedTwoFreed.mgr.deleteItem 4100).heap 4096 = 17592186052608 :=
  ⟨reachable_run _ _ _ wrappedState_reachable (fun _ _ => trivial) (by decide),
    by decide, by decide, by decide, by decide⟩

/-- C15 (amended): for a pool with `itemSize * itemsPerBlock < 2^64`, in every reachable
state the chain from `head` along the stored pointers reaches null, visits no address
twice, and visits only handed-out slots that are not live; every handed-out slot is either
live or on the chain, never both, and an address that is not a handed-out slot is neither
live nor on the chain. -/
theorem freelist_wellformed (s : Sys) (hr : Reachable s) (hno : NoOverflow s.mgr) :
    ∃ fl, FreeChain s.mgr.heap s.mgr.head fl ∧ fl.Nodup ∧
      (∀ x ∈ fl, HandedOut s.mgr x ∧ s.live x = false) ∧
      (∀ x, HandedOut s.mgr x →
        (s.live x = true ∧ x ∉ fl) ∨ (s.live x = false ∧ x ∈ fl)) ∧
      (∀ x, ¬ HandedOut s.mgr x → s.live x = false ∧ x ∉ fl) := by
  obtain ⟨fl, hinv⟩ := reachable_inv _ s hr hno
  have hnl : ∀ x, x ∈ fl → s.live x = false := by
    intro x hx
    cases hl : s.live x with
    | false => rfl
    | true => exact absurd hx ((hinv.live_iff x).mp hl).2
  refine ⟨fl, hinv.chain, hinv.nodup, ?_, ?_, ?_⟩
  · intro x hx
    exact ⟨hinv.free_handed x hx, hnl x hx⟩
  · intro x hx
    by_cases hfl : x ∈ fl
    · exact Or.inr ⟨hnl x hfl, hfl⟩
    · exact Or.inl ⟨(hinv.live_iff x).mpr ⟨hx, hfl⟩, hfl⟩
  · intro x hx
    refine ⟨?_, fun hfl => hx (hinv.free_handed x hfl)⟩
    cases hl : s.live x with
    | false => rfl
    | true => exact absurd ((hinv.live_iff x).mp hl).1 hx

/-- Witness of C15 on `sampleState`. -/
theorem freelist_wellformed_witness :
    Reachable sampleState ∧ NoOverflow sampleState.mgr ∧
    ∃ fl, FreeChain sampleState.mgr.heap sampleState.mgr.head fl ∧ fl.Nodup ∧
      (∀ x ∈ fl, HandedOut sampleState.mgr x ∧ sampleState.live x = false) ∧
      (∀ x, HandedOut sampleState.mgr x →
        (sampleState.live x = true ∧ x ∉ fl) ∨ (sampleState.live x = false ∧ x ∈ fl)) ∧
      (∀ x, ¬ HandedOut sampleState.mgr x → sampleState.live x = false ∧ x ∉ fl) :=
  ⟨sampleState_reachable _ (fun _ _ => trivial), by decide,
    freelist_wellformed sampleState (sampleState_reachable _ (fun _ _ => trivial))
      (by decide)⟩

/-- C15 as stated fails on the pool `newManager(2^63 + 2, 4)`, where the product of the
sizes wraps around and the slots at 4096 and 4100 overlap: after valid calls the chain from
`head` goes 4100, 4096, 17592186052608, and the last address is no slot of any block, while
the handed-out slot 8192 is neither live nor on the chain. -/
theorem freelist_leaves_the_blocks :
    Reachable wrappedFreed ∧ wrappedFreed.mgr.head = 4100 ∧
    storedPtr wrappedFreed.mgr.heap 4100 = 4096 ∧
    storedPtr wrappedFreed.mgr.heap 4096 = 17592186052608 ∧
    storedPtr wrappedFreed.mgr.heap 17592186052608 = 0 ∧
    ¬ HandedOut wrappedFreed.mgr 17592186052608 ∧ ¬ IsSlot wrappedFreed.mgr 17592186052608 ∧
    HandedOut wrappedFreed.mgr 8192 ∧ wrappedFreed.live 8192 = false :=
  ⟨reachable_run _ _ _ wrappedState_reachable (fun _ _ => trivial) (by decide),
    by decide, by decide, by decide, by decide, by decide, by decide, by decide, by decide⟩

/-! ## Claim C14 -/

theorem handedOut_iff_live_or_free (m : MemoryManager) (live : Nat → Bool) (fl : List Nat)
    (hinv : Inv m live fl) (x : Nat) : HandedOut m x ↔ live x = true ∨ x ∈ fl := by
  constructor
  · intro hx
    by_cases hfl : x ∈ fl
    · exact Or.inr hfl
    · exact Or.inl ((hinv.live_iff x).mpr ⟨hx, hfl⟩)
  · rintro (h | h)
    · exact ((hinv.live_iff x).mp h).1
    · exact hinv.free_handed x h

theorem reachableEver_reachable (s : Sys) (ever : Nat → Bool) (hr : ReachableEver s ever) :
    Reachable s := by
  induction hr with
  | init S ipb malloc heap m hS hipb hmal hc =>
    exact ReachableBy.init S ipb malloc heap m hS hipb hmal hc
  | step s ever op r s1 _ hv hstep ih => exact ReachableBy.step s op r s1 ih trivial hv hstep
  | fail s ever op s1 _ hv hstep ih => exact ReachableBy.fail s op s1 ih trivial hv hstep

theorem ever_allocStep (m : MemoryManager) (live : Nat → Bool) (fl : List Nat)
    (hinv : Inv m live fl) (hno : NoOverflow m) (k : Nat) (malloc : Nat → Nat)
    (hmal : MallocOk m malloc) (a : Nat) (m1 : MemoryManager)
    (hstep : AllocStep m k malloc (.ok a) m1) (ever : Nat → Bool)
    (ih : ∀ x, ever x = true ↔ HandedOut m x) (x : Nat) :
    (inRun a m.itemSize k x || ever x) = true ↔ HandedOut m1 x := by
  have hinv1 := inv_allocStep m live fl hinv hno k malloc hmal a m1 hstep
  rw [handedOut_iff_live_or_free m1 _ fl hinv1 x]
  simp only [Bool.or_eq_true]
  rw [ih x, handedOut_iff_live_or_free m live fl hinv x]
  tauto

theorem ever_iff_handedOut (s : Sys) (ever : Nat → Bool) (hr : ReachableEver s ever) :
    NoOverflow s.mgr → ∀ x, ever x = true ↔ HandedOut s.mgr x := by
  induction hr with
  | init S ipb malloc heap m hS hipb hmal hc =>
    intro hno x
    have hinv := inv_construct S ipb malloc heap m hmal hc hno
    show false = true ↔ HandedOut m x
    rw [handedOut_iff_live_or_free _ _ _ hinv x]
    simp
  | step s ever op r s1 hreach hv hstep ih =>
    intro hno x
    have hno0 := (step_noOverflow s op _ s1 hstep).mp hno
    have ih := ih hno0
    obtain ⟨fl, hinv⟩ := reachable_inv _ s (reachableEver_reachable s ever hreach) hno0
    have hipb := noOverflow_ipb s.mgr hinv.item8 hno0
    have hS : 0 < s.mgr.itemSize := by have := hinv.item8; unfold PTR_SIZE at this; omega
    cases op with
    | newItem malloc =>
      cases r with
      | none => simp only [step] at hstep; split at hstep <;> simp at hstep
      | some a =>
        obtain ⟨m1, hn, hm1, _, _⟩ := step_newItem_ok s malloc a s1 hstep
        rw [hm1]
        show (x == a || ever x) = true ↔ HandedOut m1 x
        rcases newItem_spec s.mgr malloc hipb hinv.uninit_le _ _ hn with
          ⟨hh, hr, rfl⟩ | ⟨hh, hst⟩
        · cases hr
          obtain ⟨rest, hfl, _⟩ := inv_pop s.mgr s.live fl hinv hh
          have hhead : ever s.mgr.head = true :=
            (ih _).mpr (hinv.free_handed _ (by rw [hfl]; exact List.mem_cons_self _ _))
          have hsame : HandedOut { s.mgr with head := storedPtr s.mgr.heap s.mgr.head } x ↔
              HandedOut s.mgr x := by
            unfold HandedOut; rfl
          rw [hsame, ← ih x]
          simp only [Bool.or_eq_true, beq_iff_eq]
          constructor
          · rintro (h | h)
            · rw [h]; exact hhead
            · exact h
          · intro h; exact Or.inr h
        · rw [← inRun_one a s.mgr.itemSize x hS]
          exact ever_allocStep s.mgr s.live fl hinv hno0 1 malloc hv a m1 hst ever ih x
    | newItems k malloc =>
      cases r with
      | none => simp only [step] at hstep; split at hstep <;> simp at hstep
      | some a =>
        obtain ⟨m1, hn, hm1, _, _⟩ := step_newItems_ok s k malloc a s1 hstep
        rw [hm1]
        show (inRun a s.mgr.itemSize k x || ever x) = true ↔ HandedOut m1 x
        have hst := newItems_spec s.mgr k malloc hipb hinv.uninit_le _ _ hn
        exact ever_allocStep s.mgr s.live fl hinv hno0 k malloc hv.2 a m1 hst ever ih x
    | deleteItem item =>
      simp only [step, Prod.mk.injEq] at hstep
      obtain ⟨_, rfl⟩ := hstep
      show ever x = true ↔ HandedOut (s.mgr.deleteItem item) x
      rw [ih x]
      unfold HandedOut MemoryManager.deleteItem; rfl
    | write slot offset byte =>
      simp only [step, Prod.mk.injEq] at hstep
      obtain ⟨_, rfl⟩ := hstep
      show ever x = true ↔ HandedOut _ x
      rw [ih x]
      unfold HandedOut; rfl
  | fail s ever op s1 hreach hv hstep ih =>
    intro hno x
    have hno0 := (step_noOverflow s op _ s1 hstep).mp hno
    obtain ⟨fl, hinv⟩ := reachable_inv _ s (reachableEver_reachable s ever hreach) hno0
    have := (inv_step s op fl hinv hno0 hv).2 s1 hstep
    subst this
    exact ih hno0 x

/-- C14 (amended): for a pool with `itemSize * itemsPerBlock < 2^64`, in every reachable
state each block has `unitializedItems ≤ itemsPerBlock`, and the slot of index `i` of a
block was ever handed out (by `newItem`, or as a member of a `newItems` run) exactly when
`i < itemsPerBlock - unitializedItems`: the handed-out slots of a block are the first
ones. -/
theorem handed_out_is_prefix (s : Sys) (ever : Nat → Bool) (hr : ReachableEver s ever)
    (hno : NoOverflow s.mgr) :
    ∀ b ∈ s.mgr.blocks, b.unitializedItems ≤ s.mgr.itemsPerBlock ∧
      ∀ i, i < s.mgr.itemsPerBlock →
        (ever (b.memory + i * s.mgr.itemSize) = true ↔
          i < s.mgr.itemsPerBlock - b.unitializedItems) := by
  obtain ⟨fl, hinv⟩ := reachable_inv _ s (reachableEver_reachable s ever hr) hno
  have hS : 0 < s.mgr.itemSize := by have := hinv.item8; unfold PTR_SIZE at this; omega
  intro b hb
  refine ⟨hinv.uninit_le b hb, ?_⟩
  intro i hi
  rw [ever_iff_handedOut s ever hr hno]
  constructor
  · rintro ⟨c, hc, j, hj, hx⟩
    have hinj := slot_inj s.mgr.itemSize s.mgr.itemsPerBlock hS _ hinv.disj b.memory c.memory
      i j (List.mem_map_of_mem _ hb) (List.mem_map_of_mem _ hc) hi (by omega) hx
    have hsize : 0 < s.mgr.itemSize * s.mgr.itemsPerBlock := Nat.mul_pos hS (by omega)
    have hbc := block_of_memory _ hsize s.mgr.blocks hinv.disj b c hb hc hinj.1
    subst hbc
    omega
  · intro h
    exact ⟨b, hb, i, h, rfl⟩

theorem reachableEver_run :
    ∀ (ops : List Op) (s : Sys) (ever : Nat → Bool), ReachableEver s ever →
      validRun s ops = true → ReachableEver (runOps s ops).2 (runEver s ever ops) := by
  intro ops
  induction ops with
  | nil => intro s ever hr _; exact hr
  | cons op ops ih =>
    intro s ever hr hv
    simp only [validRun, Bool.and_eq_true, decide_eq_true_eq] at hv
    obtain ⟨hvalid, hrest⟩ := hv
    cases hstep : step s op with
    | mk res s1 =>
      rw [hstep] at hrest
      cases res with
      | error e => simp at hrest
      | ok r =>
        simp only at hrest
        rw [runOps_cons_ok s op ops r s1 hstep]
        have : runEver s ever (op :: ops) = runEver s1 (everAfter s ever op r) ops := by
          simp [runEver, hstep]
        rw [this]
        exact ih s1 _ (ReachableEver.step s ever op r s1 hr hvalid hstep) hrest

theorem reachableEver_startAt (S ipb p : Nat) (hS : S < WORD)
    (hipb : ipb < WORD) (h8 : PTR_SIZE ≤ S) (hp : p ≠ 0) (hfit : p + S * ipb % WORD ≤ WORD) :
    ReachableEver (startAt S ipb p) (fun _ => false) := by
  have hc : newManager S ipb (mallocAt p) zeroHeap =
      .ok { MemoryManager.members S ipb zeroHeap with
            blocks := [{ unitializedItems := ipb, memory := p }] } := by
    unfold newManager MemoryManager.construct
    rw [if_neg (by omega), addBlock_eq]
    simp [mallocAt, hp, MemoryManager.members]
  unfold startAt
  rw [hc]
  refine ReachableEver.init S ipb (mallocAt p) zeroHeap _ hS hipb ?_ hc
  right
  simp [MemoryManager.members, mallocAt, hfit]

/-- Witness of C14 on the state after `sampleOps`. -/
theorem handed_out_is_prefix_witness :
    ReachableEver sampleState (runEver (startAt 16 4 4096) (fun _ => false) sampleOps) ∧
    NoOverflow sampleState.mgr ∧
    ∀ b ∈ sampleState.mgr.blocks, b.unitializedItems ≤ sampleState.mgr.itemsPerBlock ∧
      ∀ i, i < sampleState.mgr.itemsPerBlock →
        (runEver (startAt 16 4 4096) (fun _ => false) sampleOps
            (b.memory + i * sampleState.mgr.itemSize) = true ↔
          i < sampleState.mgr.itemsPerBlock - b.unitializedItems) :=
  ⟨reachableEver_run sampleOps _ _
      (reachableEver_startAt 16 4 4096 (by decide) (by decide) (by decide) (by decide)
        (by decide)) (by decide),
    by decide,
    handed_out_is_prefix sampleState _
      (reachableEver_run sampleOps _ _
        (reachableEver_startAt 16 4 4096 (by decide) (by decide) (by decide) (by decide)
          (by decide)) (by decide))
      (by decide)⟩

/-- C14 as stated fails on the pool `newManager(2^33, 2^31 + 1)`, where the product of the
sizes wraps around to `2^33`: after `newItem` and `newItems(2^31 + 1)` the first block has
handed out its slot 0 only (`itemsPerBlock - unitializedItems = 1`), but its slot 1 at
`2^40 + 2^33` has been handed out as the first item of the run in the second block. -/
theorem handed_out_beyond_prefix :
    ReachableEver adjacentBehind (runEver adjacentStart (fun _ => false) adjacentOps) ∧
    ({ unitializedItems := 2 ^ 31, memory := 2 ^ 40 } : Block) ∈ adjacentBehind.mgr.blocks ∧
    1 < adjacentBehind.mgr.itemsPerBlock ∧
    runEver adjacentStart (fun _ => false) adjacentOps
      (2 ^ 40 + 1 * adjacentBehind.mgr.itemSize) = true ∧
    ¬ 1 < adjacentBehind.mgr.itemsPerBlock - 2 ^ 31 :=
  ⟨reachableEver_run adjacentOps _ _
      (reachableEver_startAt (2 ^ 33) (2 ^ 31 + 1) (2 ^ 40) (by decide) (by decide)
        (by decide) (by decide) (by decide)) (by decide),
    by decide, by decide, by decide, by decide⟩

/-! ## Claims C17 and C18 -/

/-- Witness of C12: on `sampleState` the first block is used up and `newItems(2)` is
served by the second. -/
theorem newItems_policy_witness :
    Reachable sampleState ∧ 2 ≤ sampleState.mgr.itemsPerBlock ∧
    sampleState.mgr.blocks =
      [{ unitializedItems := 0, memory := 4096 }] ++
        { unitializedItems := 3, memory := 8192 } :: [] ∧
    sampleState.mgr.newItems 2 (mallocAt 0) =
      (.ok (Block.itemAtIndex { unitializedItems := 3, memory := 8192 }
          sampleState.mgr.itemSize (sampleState.mgr.itemsPerBlock - 3)),
        { sampleState.mgr with blocks :=
            [{ unitializedItems := 0, memory := 4096 }] ++
              { unitializedItems := 3 - 2, memory := 8192 } :: [] }) :=
  ⟨sampleState_reachable _ (fun _ _ => trivial), by decide, by decide,
    (newItems_policy sampleState (sampleState_reachable _ (fun _ _ => trivial)) 2
      (by decide) (mallocAt 0)).1 [{ unitializedItems := 0, memory := 4096 }]
      { unitializedItems := 3, memory := 8192 } [] (by decide) (by decide) (by decide)⟩

/-- Witness of C16: after `singleOps` the older block has no uninitialized item. -/
theorem older_blocks_used_up_witness :
    ReachableBy WithoutNewItems twoBlockState ∧
    twoBlockState.mgr.blocks =
      [{ unitializedItems := 0, memory := 4096 }, { unitializedItems := 1, memory := 8192 }] ∧
    ∀ b ∈ twoBlockState.mgr.blocks.dropLast, b.unitializedItems = 0 :=
  ⟨reachable_run _ singleOps _
      (reachable_startAt _ 16 2 4096 (by decide) (by decide) (by decide) (by decide)
        (by decide)) (by decide) (by decide),
    by decide,
    older_blocks_used_up twoBlockState
      (reachable_run _ singleOps _
        (reachable_startAt _ 16 2 4096 (by decide) (by decide) (by decide) (by decide)
          (by decide)) (by decide) (by decide))⟩

/-- Witness of C19 on `sampleState`. -/
theorem assertions_hold_witness :
    Reachable sampleState ∧ 1 ≤ sampleState.mgr.itemsPerBlock ∧
    sampleState.mgr.blocks ≠ [] ∧
    (sampleState.mgr.newItem (mallocAt 0)).1 ≠ .error .assertionFailed ∧
    (sampleState.mgr.newItem (mallocAt 0)).1 ≠ .error .emptyBack ∧
    ∀ count, count ≤ sampleState.mgr.itemsPerBlock →
      (sampleState.mgr.newItems count (mallocAt 0)).1 ≠ .error .assertionFailed :=
  ⟨sampleState_reachable _ (fun _ _ => trivial), by decide,
    assertions_hold sampleState (sampleState_reachable _ (fun _ _ => trivial)) (by decide)
      (mallocAt 0)⟩

/-- C17, evaluated: on the reachable state after `newManager(8, 2^32)` and
`newItems(2^32)` the block has handed out `2^32` items; the `unsigned int` index of the
loop in `addItemsFromBlock` wraps around before it reaches that bound, so the loop runs out
of every fuel and `allocatedItems` does not return. -/
theorem allocatedItems_index_wraps :
    Reachable hugeState ∧
    hugeState.mgr.blocks = [{ unitializedItems := 0, memory := 2 ^ 40 }] ∧
    hugeState.mgr.itemSize = 8 ∧ hugeState.mgr.itemsPerBlock = 2 ^ 32 ∧
    (∀ fuel out, addItemsFromBlock 8 (2 ^ 32) fuel out
      { unitializedItems := 0, memory := 2 ^ 40 } = none) ∧
    ∀ fuel, hugeState.mgr.allocatedItems fuel = none :=
  ⟨hugeState_reachable, by decide, by decide, by decide,
    fun fuel out => addItemsLoop_none _ _ _ (by decide) fuel 0 out (by decide),
    hugeState_allocatedItems⟩

theorem itemAtIndex_inside (b : Block) (S ipb i : Nat) (hi : i < ipb)
    (hm : b.memory + S * ipb ≤ WORD) (h0 : b.memory < WORD) (hno : S * ipb < WORD) :
    b.memory ≤ b.itemAtIndex S i ∧ b.itemAtIndex S i + S ≤ b.memory + S * ipb := by
  unfold Block.itemAtIndex
  by_cases hS : S = 0
  · subst hS
    simp only [Nat.mul_zero, Nat.zero_mod, Nat.add_zero, Nat.zero_mul]
    rw [Nat.mod_eq_of_lt h0]
    exact ⟨le_refl _, le_refl _⟩
  · have h1 : (i + 1) * S ≤ S * ipb := by
      rw [Nat.mul_comm S ipb]; exact Nat.mul_le_mul_right S hi
    have h2 : (i + 1) * S = i * S + S := by ring
    have h3 : i * S < WORD := by omega
    rw [Nat.mod_eq_of_lt h3, Nat.mod_eq_of_lt (by omega)]
    constructor <;> omega

/-- C18 (amended): creating a block passes `itemSize * itemsPerBlock` modulo `2^64` to
`malloc`.  When `itemSize * itemsPerBlock < 2^64` this is the product itself, and then, the
buffer being at a pointer and lying inside the address space, every slot `itemAtIndex(i)`
with `i < itemsPerBlock` lies with its `itemSize` bytes inside the buffer. -/
theorem block_buffer (itemSize itemsPerBlock : Nat) (malloc : Nat → Nat) (b : Block)
    (h : Block.create itemSize itemsPerBlock malloc = .ok b) :
    b.memory = malloc (itemSize * itemsPerBlock % WORD) ∧ b.memory ≠ 0 ∧
    b.unitializedItems = itemsPerBlock ∧
    (itemSize * itemsPerBlock < WORD →
      itemSize * itemsPerBlock % WORD = itemSize * itemsPerBlock ∧
      (b.memory < WORD → b.memory + itemSize * itemsPerBlock ≤ WORD →
        ∀ i, i < itemsPerBlock →
        b.memory ≤ b.itemAtIndex itemSize i ∧
        b.itemAtIndex itemSize i + itemSize ≤ b.memory + itemSize * itemsPerBlock)) := by
  unfold Block.create at h
  by_cases hp : malloc (itemSize * itemsPerBlock % WORD) = 0
  · simp [hp] at h
  · simp only [hp, if_false, Except.ok.injEq] at h
    subst h
    refine ⟨rfl, hp, rfl, ?_⟩
    intro hno
    refine ⟨Nat.mod_eq_of_lt hno, ?_⟩
    intro hlt hfit i hi
    exact itemAtIndex_inside _ itemSize itemsPerBlock i hi hfit hlt hno

/-- Witness of C18: a block of 4 items of 16 bytes at 4096. -/
theorem block_buffer_witness :
    Block.create 16 4 (mallocAt 4096) = .ok { unitializedItems := 4, memory := 4096 } ∧
    16 * 4 < WORD ∧ 4096 < WORD ∧ 4096 + 16 * 4 ≤ WORD ∧
    ∀ i, i < 4 →
      4096 ≤ Block.itemAtIndex { unitializedItems := 4, memory := 4096 } 16 i ∧
      Block.itemAtIndex { unitializedItems := 4, memory := 4096 } 16 i + 16 ≤ 4096 + 16 * 4 :=
  ⟨rfl, by decide, by decide, by decide,
    ((block_buffer 16 4 (mallocAt 4096) { unitializedItems := 4, memory := 4096 } rfl).2.2.2
      (by decide)).2 (by decide) (by decide)⟩

/-- C18 as stated fails for `itemSize = 2^63 + 2` and `itemsPerBlock = 4`: the block asks
`malloc` for 8 bytes, not for the product, and its slot 1 lies outside these 8 bytes. -/
theorem block_buffer_too_small :
    (2 ^ 63 + 2) * 4 % WORD = 8 ∧ (2 ^ 63 + 2) * 4 ≠ 8 ∧
    Block.create (2 ^ 63 + 2) 4 (mallocAt 4096) =
      .ok { unitializedItems := 4, memory := 4096 } ∧
    ¬ (Block.itemAtIndex { unitializedItems := 4, memory := 4096 } (2 ^ 63 + 2) 1
        + (2 ^ 63 + 2) ≤ 4096 + 8) :=
  ⟨by decide, by decide, rfl, by decide⟩

/-! ## Claim C20 -/

theorem loadBytes_byte (heap : Heap) :
    ∀ (n a k : Nat), k < n → loadBytes heap a n / 256 ^ k % 256 = (heap (a + k)).val := by
  intro n
  induction n with
  | zero => intro a k hk; omega
  | succ n ih =>
    intro a k hk
    have hb : (heap a).val < 256 := (heap a).isLt
    cases k with
    | zero =>
      simp only [loadBytes, pow_zero, Nat.div_one, Nat.add_zero]
      rw [Nat.add_mul_mod_self_left]
      exact Nat.mod_eq_of_lt hb
    | succ k =>
      have hdiv : ((heap a).val + 256 * loadBytes heap (a + 1) n) / 256 =
          loadBytes heap (a + 1) n := by
        rw [Nat.add_mul_div_left _ _ (by decide : 0 < 256), Nat.div_eq_of_lt hb,
          Nat.zero_add]
      have e : 256 ^ (k + 1) = 256 * 256 ^ k := by rw [pow_succ, Nat.mul_comm]
      simp only [loadBytes]
      rw [e, ← Nat.div_div_eq_div_mul, hdiv, ih (a + 1) k (by omega)]
      congr 2
      omega

theorem setStoredPtr_storedPtr (heap : Heap) (a : Nat) :
    setStoredPtr heap a (storedPtr heap a) = heap := by
  funext b
  unfold setStoredPtr
  by_cases h : a ≤ b ∧ b < a + PTR_SIZE
  · rw [if_pos h]
    apply Fin.ext
    simp only
    unfold storedPtr
    rw [loadBytes_byte heap PTR_SIZE a (b - a) (by omega)]
    congr 2
    omega
  · rw [if_neg h]

theorem freeChain_zero (heap : Heap) (fl : List Nat) (h : FreeChain heap 0 fl) : fl = [] := by
  cases fl with
  | nil => rfl
  | cons x xs =>
    obtain ⟨e, hx, _⟩ := h
    exact absurd e.symm hx

/-- C20 (amended): in every reachable state whose free list is not empty, `newItem`
followed by `deleteItem` of the returned address restores the manager exactly (`head`,
memory, blocks and counters).  When the free list is empty, for a pool with
`itemSize * itemsPerBlock < 2^64`, the same pair leaves the live set unchanged but not the
manager: the returned address was not handed out before, is handed out afterwards, and is
alone on the free list. -/
theorem newItem_deleteItem_pair (s : Sys) (hr : Reachable s) (malloc : Nat → Nat) :
    (s.mgr.head ≠ 0 →
      (s.mgr.newItem malloc).1 = .ok s.mgr.head ∧
      (s.mgr.newItem malloc).2.deleteItem s.mgr.head = s.mgr) ∧
    (s.mgr.head = 0 → NoOverflow s.mgr → ValidOp s (.newItem malloc) →
      ∀ a s1, step s (.newItem malloc) = (.ok (some a), s1) →
        (step s1 (.deleteItem a)).2.live = s.live ∧
        (step s1 (.deleteItem a)).2.mgr ≠ s.mgr ∧
        ¬ HandedOut s.mgr a ∧ HandedOut (step s1 (.deleteItem a)).2.mgr a ∧
        a ≠ 0 ∧ (step s1 (.deleteItem a)).2.mgr.head = a ∧
        storedPtr (step s1 (.deleteItem a)).2.mgr.heap a = 0) := by
  constructor
  · intro hh
    have hn : s.mgr.newItem malloc =
        (.ok s.mgr.head, { s.mgr with head := storedPtr s.mgr.heap s.mgr.head }) := by
      unfold MemoryManager.newItem
      rw [if_pos hh]
    rw [hn]
    refine ⟨rfl, ?_⟩
    unfold MemoryManager.deleteItem
    simp only
    rw [setStoredPtr_storedPtr]
  · intro hh hno hv a s1 h
    obtain ⟨fl, hinv⟩ := reachable_inv _ s hr hno
    have hfl : fl = [] := by
      have := hinv.chain
      rw [hh] at this
      exact freeChain_zero _ _ this
    subst hfl
    obtain ⟨fl1, hinv1⟩ := (inv_step s _ [] hinv hno hv).1 _ s1 h
    obtain ⟨m1, hn, hm1, hl, _⟩ := step_newItem_ok s malloc a s1 h
    have hnotlive := alloc_not_live s [] hinv hno (.newItem malloc) trivial hv a s1 h
    have hlive1 : s1.live a = true := by rw [hl]; simp
    have hh1 : HandedOut s1.mgr a := ((hinv1.live_iff a).mp hlive1).1
    have ha0 := (handedOut_bounds s1.mgr s1.live fl1 hinv1 a hh1).1
    have hhead1 : s1.mgr.head = 0 := by
      have hipb := noOverflow_ipb s.mgr hinv.item8 hno
      rcases newItem_spec s.mgr malloc hipb hinv.uninit_le _ _ hn with
        ⟨hne, _, _⟩ | ⟨_, hst⟩
      · exact absurd hh hne
      · rcases hst with ⟨hr1, _, _⟩ | ⟨e, hr1, _⟩ | ⟨_, _, _, _, _, _, _, _, hm⟩
        · cases hr1
        · cases hr1
        · rw [hm1, hm]; exact hh
    refine ⟨?_, ?_, ?_, ?_, ha0, rfl, ?_⟩
    · funext x
      show (x != a && s1.live x) = s.live x
      rw [hl]
      by_cases hx : x = a
      · subst hx; simp [hnotlive]
      · have h1 : (x != a) = true := by simp [hx]
        have h2 : (x == a) = false := by simp [hx]
        rw [h1]
        show (true && (x == a || s.live x)) = s.live x
        rw [h2]; simp
    · intro he
      have : (s1.mgr.deleteItem a).head = s.mgr.head := by
        have := congrArg MemoryManager.head he
        exact this
      rw [hh] at this
      exact ha0 this
    · intro hx
      have := (hinv.live_iff a).mpr ⟨hx, by simp⟩
      rw [hnotlive] at this
      cases this
    · show HandedOut (s1.mgr.deleteItem a) a
      unfold HandedOut MemoryManager.deleteItem
      exact hh1
    · show storedPtr (s1.mgr.deleteItem a).heap a = 0
      unfold MemoryManager.deleteItem
      simp only
      rw [storedPtr_set_same _ _ _ (by rw [hhead1]; decide), hhead1]

/-- Witness of C20: on `sampleState` the free list holds 4112 and the pair restores the
manager. -/
theorem newItem_deleteItem_pair_witness :
    Reachable sampleState ∧ sampleState.mgr.head ≠ 0 ∧
    (sampleState.mgr.newItem (mallocAt 0)).1 = .ok sampleState.mgr.head ∧
    (sampleState.mgr.newItem (mallocAt 0)).2.deleteItem sampleState.mgr.head =
      sampleState.mgr :=
  ⟨sampleState_reachable _ (fun _ _ => trivial), by decide,
    (newItem_deleteItem_pair sampleState (sampleState_reachable _ (fun _ _ => trivial))
      (mallocAt 0)).1 (by decide)⟩

/-- C20 as stated fails on the pool `newManager(2^33, 2^31 + 1)`, where the product of the
sizes wraps around to `2^33`: with the only block used up by `newItems(2^31 + 1)` and the
free list empty, `newItem` gets a block right behind the first buffer and returns
`2^40 + 2^33`, which is live already; after `deleteItem` of it the live set has lost that
address. -/
theorem pair_changes_live_set :
    Reachable adjacentFull ∧ adjacentFull.mgr.head = 0 ∧
    validRun adjacentFull
      [.newItem (mallocAt (2 ^ 40 + 2 ^ 33)), .deleteItem (2 ^ 40 + 2 ^ 33)] = true ∧
    (runOps adjacentFull
      [.newItem (mallocAt (2 ^ 40 + 2 ^ 33)), .deleteItem (2 ^ 40 + 2 ^ 33)]).1 =
      [some (2 ^ 40 + 2 ^ 33), none] ∧
    adjacentFull.live (2 ^ 40 + 2 ^ 33) = true ∧
    (runOps adjacentFull
      [.newItem (mallocAt (2 ^ 40 + 2 ^ 33)), .deleteItem (2 ^ 40 + 2 ^ 33)]).2.live
      (2 ^ 40 + 2 ^ 33) = false :=
  ⟨reachable_run _ _ _ (adjacentStart_reachable _) (fun _ _ => trivial) (by decide),
    by decide, by decide, by decide, by decide, by decide⟩

end Pool
